import Mathlib

/-!
Verification of the non-visual core of the Gantt planning tool against its
specification.  The Rust sources under `src/model/` are shallowly embedded:

* `uuid::Uuid` is modelled as `Nat` (only identity matters);
* `chrono::NaiveDateTime` is modelled as `Int` (seconds; the code compares,
  subtracts and adds whole seconds, and both orders agree);
* `f32` quantities (task progress, pixels-per-day and per-hour) are modelled as `ℚ`,
  mirroring the exact arithmetic the code performs on them;
* `Vec<T>` is `List T` with `push` appending at the tail.
-/

namespace Gantt

/-- Embedding of `TaskPriority` from `src/model/task.rs`. -/
inductive TaskPriority where
  | None
  | Low
  | Medium
  | High
  | Critical
deriving DecidableEq

/-- Embedding of `DependencyKind` from `src/model/task.rs`. -/
inductive DependencyKind where
  | FinishToStart
  | StartToStart
  | FinishToFinish
  | StartToFinish
deriving DecidableEq

/-- Embedding of `egui::Color32`, stored as RGBA bytes. -/
structure Color32 where
  r : Nat
  g : Nat
  b : Nat
  a : Nat
deriving DecidableEq

/-- Embedding of `Dependency` from `src/model/task.rs`. -/
structure Dependency where
  from_task : Nat
  to_task : Nat
  kind : DependencyKind
deriving DecidableEq

/-- Embedding of `Task` from `src/model/task.rs`.  `end` is a Lean keyword, so the field is
named `end_`.  `start`/`end_` are datetimes in seconds, `progress` is the
`f32` progress modelled as `ℚ`. -/
structure Task where
  id : Nat
  name : String
  start : Int
  end_ : Int
  progress : ℚ
  group : Option String
  parent_id : Option Nat
  collapsed : Bool
  priority : TaskPriority
  description : String
  color : Color32
  is_milestone : Bool
deriving DecidableEq

/-- Embedding of `Project` from `src/model/project.rs` (timestamps as seconds). -/
structure Project where
  version : Nat
  name : String
  tasks : List Task
  dependencies : List Dependency
  created : Int
  modified : Int
deriving DecidableEq

/-! ## UndoHistory (`src/model/history.rs`) -/

/-- Embedding of `ProjectSnapshot` from `src/model/history.rs`. -/
structure ProjectSnapshot where
  tasks : List Task
  dependencies : List Dependency
deriving DecidableEq

/-- Embedding of `const MAX_HISTORY: usize = 50`. -/
def MAX_HISTORY : Nat := 50

/-- Embedding of `UndoHistory` from `src/model/history.rs`.  The stacks are `Vec`s: index 0
is the oldest entry and pushes go at the tail. -/
structure UndoHistory where
  past : List ProjectSnapshot
  future : List ProjectSnapshot
deriving DecidableEq

/-- Embedding of `UndoHistory::new`. -/
def UndoHistory.new : UndoHistory := ⟨[], []⟩

/-- Embedding of `UndoHistory::push`: evict the oldest entry (`remove(0)`) when the past
stack is at capacity, append the snapshot, clear the redo stack. -/
def push (h : UndoHistory) (tasks : List Task) (dependencies : List Dependency) :
    UndoHistory :=
  let past := if MAX_HISTORY ≤ h.past.length then h.past.drop 1 else h.past
  { past := past ++ [⟨tasks, dependencies⟩], future := [] }

/-- Embedding of `UndoHistory::undo`: pop the most recent past snapshot (`Vec::pop` takes
the tail), push the caller-supplied current state onto the future stack and
return the popped snapshot.  The mutated history is returned as the second
component. -/
def undo (h : UndoHistory) (current_tasks : List Task)
    (current_deps : List Dependency) : Option ProjectSnapshot × UndoHistory :=
  match h.past.getLast? with
  | none => (none, h)
  | some snapshot =>
      (some snapshot,
       { past := h.past.dropLast,
         future := h.future ++ [⟨current_tasks, current_deps⟩] })

/-- Embedding of `UndoHistory::redo`: symmetric to `undo`. -/
def redo (h : UndoHistory) (current_tasks : List Task)
    (current_deps : List Dependency) : Option ProjectSnapshot × UndoHistory :=
  match h.future.getLast? with
  | none => (none, h)
  | some snapshot =>
      (some snapshot,
       { past := h.past ++ [⟨current_tasks, current_deps⟩],
         future := h.future.dropLast })

/-- Embedding of `UndoHistory::can_undo`. -/
def can_undo (h : UndoHistory) : Bool := !h.past.isEmpty

/-- Embedding of `UndoHistory::can_redo`. -/
def can_redo (h : UndoHistory) : Bool := !h.future.isEmpty

/-- A sequence of `push` calls (used to state the 51-push property). -/
def pushList (h : UndoHistory) (l : List ProjectSnapshot) : UndoHistory :=
  l.foldl (fun h s => push h s.tasks s.dependencies) h

/-! ### History lemmas -/

theorem pushList_append (h : UndoHistory) (l₁ l₂ : List ProjectSnapshot) :
    pushList h (l₁ ++ l₂) = pushList (pushList h l₁) l₂ := by
  simp [pushList, List.foldl_append]

theorem pushList_no_evict (l : List ProjectSnapshot) :
    ∀ h : UndoHistory, h.past.length + l.length ≤ MAX_HISTORY →
      (pushList h l).past = h.past ++ l := by
  induction l with
  | nil => intro h _; simp [pushList]
  | cons s rest ih =>
      intro h hb
      have hlt : ¬ MAX_HISTORY ≤ h.past.length := by
        simp only [List.length_cons] at hb; omega
      have : pushList h (s :: rest) = pushList (push h s.tasks s.dependencies) rest := by
        simp [pushList]
      rw [this, ih]
      · simp [push, hlt]
      · simp [push, hlt, List.length_append]
        simp only [List.length_cons] at hb; omega

/-- A concrete dependency used in witnesses and counterexamples. -/
def dep0 : Dependency := ⟨0, 1, DependencyKind.FinishToStart⟩

/-- C1 counterexample: starting empty, after `push` of snapshot A = `([] , [])`
and then `push` of snapshot B = `([], [dep0])`, `undo` (with current state
`([], [dep0, dep0])`) returns B's snapshot content, not A's, refuting the
claim at this concrete input. -/
theorem history_undo_counterexample :
    (undo (push (push UndoHistory.new [] []) [] [dep0]) [] [dep0, dep0]).1
      ≠ some ⟨[], []⟩ ∧
    (undo (push (push UndoHistory.new [] []) [] [dep0]) [] [dep0, dep0]).1
      = some ⟨[], [dep0]⟩ := by
  constructor <;> decide

/-- C1 (amended): starting empty, after `push(A)` then `push(B)`, `undo` with
the caller-supplied current state C returns B's snapshot (the most recently
pushed one) and saves C on the future stack; a following `redo` returns C, the
state that was current when `undo` was called, and pushes its own
caller-supplied current state onto the past stack. -/
theorem history_undo_redo_lifo (ta tc td : List Task)
    (da dc dd : List Dependency) (tb : List Task) (db : List Dependency) :
    (undo (push (push UndoHistory.new ta da) tb db) tc dc).1 = some ⟨tb, db⟩ ∧
    (redo (undo (push (push UndoHistory.new ta da) tb db) tc dc).2 td dd).1
      = some ⟨tc, dc⟩ ∧
    (redo (undo (push (push UndoHistory.new ta da) tb db) tc dc).2 td dd).2
      = ⟨[⟨ta, da⟩, ⟨td, dd⟩], []⟩ := by
  simp [push, undo, redo, UndoHistory.new, MAX_HISTORY]

/-- C1 amended-theorem witness at concrete snapshots. -/
theorem history_undo_redo_lifo_witness :
    (undo (push (push UndoHistory.new [] []) [] [dep0]) [] [dep0, dep0]).1
      = some ⟨[], [dep0]⟩ ∧
    (redo (undo (push (push UndoHistory.new [] []) [] [dep0]) [] [dep0, dep0]).2
        [] []).1 = some ⟨[], [dep0, dep0]⟩ :=
  ⟨(history_undo_redo_lifo [] [] [] [] [dep0, dep0] [] [] [dep0]).1,
   (history_undo_redo_lifo [] [] [] [] [dep0, dep0] [] [] [dep0]).2.1⟩

/-- C6: `undo` on an empty past stack returns an empty result and leaves the
history unchanged (in particular nothing is pushed to the future stack);
symmetrically `redo` on an empty future stack returns an empty result and
leaves the history unchanged. -/
theorem undo_redo_empty_spec (h : UndoHistory) (ct : List Task)
    (cd : List Dependency) :
    (h.past = [] → undo h ct cd = (none, h)) ∧
    (h.future = [] → redo h ct cd = (none, h)) := by
  constructor
  · intro he; simp [undo, he]
  · intro he; simp [redo, he]

/-- C6 witness: both branches at the empty history. -/
theorem undo_redo_empty_spec_witness :
    undo UndoHistory.new [] [] = (none, UndoHistory.new) ∧
    redo UndoHistory.new [] [] = (none, UndoHistory.new) :=
  ⟨(undo_redo_empty_spec UndoHistory.new [] []).1 rfl,
   (undo_redo_empty_spec UndoHistory.new [] []).2 rfl⟩

/-- C4: every `push` clears the future stack (so `can_redo` is false right
after it), a push onto a not-yet-full past stack appends without eviction,
the pushed snapshot always ends up as the newest past entry, the past stack
never grows beyond 50 entries, and after 51 pushes from empty the past stack
holds exactly the last 50 snapshots, the oldest having been evicted. -/
theorem push_capacity_spec (h : UndoHistory) (t : List Task)
    (d : List Dependency) (l : List ProjectSnapshot) (s : ProjectSnapshot)
    (hb : h.past.length ≤ 50) (hl : l.length = 50) :
    (push h t d).future = [] ∧
    can_redo (push h t d) = false ∧
    (push h t d).past.getLast? = some ⟨t, d⟩ ∧
    (h.past.length < 50 → (push h t d).past = h.past ++ [⟨t, d⟩]) ∧
    (push h t d).past.length ≤ 50 ∧
    (pushList UndoHistory.new (l ++ [s])).past = (l ++ [s]).drop 1 ∧
    ((l ++ [s]).drop 1).length = 50 := by
  refine ⟨rfl, rfl, ?_, ?_, ?_, ?_, ?_⟩
  · simp [push]
  · intro hlt
    have hnot : ¬ MAX_HISTORY ≤ h.past.length := by simp [MAX_HISTORY]; omega
    simp [push, hnot]
  · by_cases hfull : MAX_HISTORY ≤ h.past.length
    · simp only [push, if_pos hfull, List.length_append, List.length_drop,
        List.length_cons, List.length_nil]
      omega
    · have hlt : h.past.length < 50 := by simp [MAX_HISTORY] at hfull; omega
      simp only [push, if_neg hfull, List.length_append, List.length_cons,
        List.length_nil]
      omega
  · obtain ⟨st, sd⟩ := s
    have hfirst : (pushList UndoHistory.new l).past = l := by
      have hcap : UndoHistory.new.past.length + l.length ≤ MAX_HISTORY := by
        rw [hl]; decide
      simpa [UndoHistory.new] using pushList_no_evict l UndoHistory.new hcap
    have hfull : MAX_HISTORY ≤ (pushList UndoHistory.new l).past.length := by
      rw [hfirst, hl]
      decide
    rw [pushList_append]
    have hone : pushList (pushList UndoHistory.new l) [⟨st, sd⟩]
        = push (pushList UndoHistory.new l) st sd := by
      simp [pushList]
    have hdrop : (l ++ [(⟨st, sd⟩ : ProjectSnapshot)]).drop 1
        = l.drop 1 ++ [⟨st, sd⟩] :=
      List.drop_append_of_le_length (by omega)
    have hfull2 : MAX_HISTORY ≤ l.length := by rw [hl]; decide
    rw [hone, hdrop]
    simp only [push, hfirst, if_pos hfull2]
  · simp [List.length_drop, List.length_append, hl]

/-- An empty snapshot used by the C4 witness. -/
def snapEmpty : ProjectSnapshot := ⟨[], []⟩

/-- C4 witness: 51 concrete pushes from empty leave exactly 50 past entries,
and a push clears the future stack. -/
theorem push_capacity_spec_witness :
    (push UndoHistory.new [] []).future = [] ∧
    (pushList UndoHistory.new
        (List.replicate 50 snapEmpty ++ [snapEmpty])).past.length = 50 := by
  have h := push_capacity_spec UndoHistory.new [] []
    (List.replicate 50 snapEmpty) snapEmpty (by simp [UndoHistory.new])
    (by simp)
  exact ⟨h.1, by rw [h.2.2.2.2.2.1]; exact h.2.2.2.2.2.2⟩

/-! ## Hierarchy recalculation (`src/model/project.rs`) -/

/-- The children of the task id `pid`:
`self.tasks.iter().filter(|t| t.parent_id == Some(pid))`. -/
def childrenOf (tasks : List Task) (pid : Nat) : List Task :=
  tasks.filter fun t => decide (t.parent_id = some pid)

/-- Embedding of `self.tasks.iter_mut().find(pred)` followed by a field assignment: rewrite
the first element satisfying `p` with `f`, leave everything else alone. -/
def setFirst (p : α → Bool) (f : α → α) : List α → List α
  | [] => []
  | a :: l => if p a then f a :: l else a :: setFirst p f l

/-- One iteration of the `for pid in parent_ids` loop body of
`Project::recalculate_parent_dates`: collect the children of `pid`, skip if
there are none, otherwise assign min start / max end / mean progress to the
first task whose id is `pid`. -/
def updateParent (tasks : List Task) (pid : Nat) : List Task :=
  match childrenOf tasks pid with
  | [] => tasks
  | c :: cs =>
      let new_start := (cs.map Task.start).foldl min c.start
      let new_end := (cs.map Task.end_).foldl max c.end_
      let new_prog := ((c :: cs).map Task.progress).sum / ((c :: cs).length : ℚ)
      setFirst (fun t => decide (t.id = pid))
        (fun t => { t with start := new_start, end_ := new_end,
                           progress := new_prog })
        tasks

/-- The distinct parent ids referenced by at least one child
(`filter_map(|t| t.parent_id).collect::<HashSet<_>>()`).  A `HashSet`
iterates in unspecified order; the embedding fixes the first-occurrence
order via `dedup`, and the theorems characterise the result per index in an
order-independent way. -/
def parentIds (tasks : List Task) : List Nat :=
  (tasks.filterMap Task.parent_id).dedup

/-- Body of `Project::recalculate_parent_dates` acting on the task list. -/
def recalcTasks (tasks : List Task) : List Task :=
  (parentIds tasks).foldl updateParent tasks

/-- Embedding of `Project::recalculate_parent_dates`. -/
def Project.recalculate_parent_dates (p : Project) : Project :=
  { p with tasks := recalcTasks p.tasks }

/-- The derived parent values for `t` from its children in `tasks` (the values
the loop body assigns). -/
def derivedTask (tasks : List Task) (t : Task) : Task :=
  match childrenOf tasks t.id with
  | [] => t
  | c :: cs =>
      { t with start := (cs.map Task.start).foldl min c.start,
               end_ := (cs.map Task.end_).foldl max c.end_,
               progress :=
                 ((c :: cs).map Task.progress).sum / ((c :: cs).length : ℚ) }

/-- Index of the first task whose id is `q` (`find(|t| t.id == pid)`). -/
def firstIdx (tasks : List Task) (q : Nat) : Nat :=
  tasks.findIdx fun t => decide (t.id = q)

/-- One level of nesting: a task that is referenced as a parent has no parent
itself (equivalently, every task with a parent id is not itself a parent). -/
def OneLevel (tasks : List Task) : Prop :=
  ∀ t ∈ tasks, (∃ c ∈ tasks, c.parent_id = some t.id) → t.parent_id = none

/-- Every field of a task except `start`, `end_` and `progress`. -/
def skel (t : Task) :
    Nat × Option Nat × String × Option String × Bool × TaskPriority ×
      String × Color32 × Bool :=
  (t.id, t.parent_id, t.name, t.group, t.collapsed, t.priority,
   t.description, t.color, t.is_milestone)

/-- The id and parent-id of a task (what hierarchy membership depends on). -/
def idParent (t : Task) : Nat × Option Nat := (t.id, t.parent_id)

theorem skel_to_id {t t' : Task} (h : skel t = skel t') : t.id = t'.id := by
  have := congrArg Prod.fst h
  simpa [skel] using this

theorem skel_to_parent {t t' : Task} (h : skel t = skel t') :
    t.parent_id = t'.parent_id := by
  have := congrArg (fun x => x.2.1) h
  simpa [skel] using this

theorem skel_to_idParent {t t' : Task} (h : skel t = skel t') :
    idParent t = idParent t' := by
  simp [idParent, skel_to_id h, skel_to_parent h]

/-! ### setFirst lemmas -/

theorem setFirst_length (p : α → Bool) (f : α → α) :
    ∀ l : List α, (setFirst p f l).length = l.length := by
  intro l
  induction l with
  | nil => rfl
  | cons a l ih =>
      by_cases h : p a <;> simp [setFirst, h, ih]

theorem setFirst_getElem? (p : α → Bool) (f : α → α) :
    ∀ (l : List α) (k : Nat),
      (setFirst p f l)[k]? =
        if k = l.findIdx p then (l[k]?).map f else l[k]? := by
  intro l
  induction l with
  | nil => intro k; simp [setFirst]
  | cons a l ih =>
      intro k
      by_cases h : p a
      · simp only [setFirst, if_pos h, List.findIdx_cons, h, cond_true]
        cases k with
        | zero => simp
        | succ k => simp
      · simp only [setFirst, if_neg h, List.findIdx_cons, h, cond_false]
        cases k with
        | zero => simp
        | succ k => simpa using ih k

theorem setFirst_map {g : α → β} {f : α → α} (p : α → Bool)
    (hf : ∀ a, g (f a) = g a) :
    ∀ l : List α, (setFirst p f l).map g = l.map g := by
  intro l
  induction l with
  | nil => rfl
  | cons a l ih =>
      by_cases h : p a <;> simp [setFirst, h, ih, hf]

theorem filter_setFirst {pr p : α → Bool} {f : α → α}
    (hpr : ∀ a, pr (f a) = pr a) :
    ∀ l : List α, (∀ a ∈ l, p a = true → pr a = false) →
      (setFirst p f l).filter pr = l.filter pr := by
  intro l
  induction l with
  | nil => intro _; rfl
  | cons a l ih =>
      intro hl
      by_cases h : p a
      · have hfa : pr a = false := hl a (List.mem_cons_self a l) h
        simp [setFirst, h, List.filter_cons, hpr, hfa]
      · have : (∀ b ∈ l, p b = true → pr b = false) := by
          intro b hb; exact hl b (List.mem_cons_of_mem a hb)
        by_cases hfa : pr a <;>
          simp [setFirst, h, List.filter_cons, hfa, ih this]

/-! ### min / max folds -/

theorem foldl_min_spec {α : Type _} [LinearOrder α] :
    ∀ (l : List α) (a : α),
      l.foldl min a ∈ a :: l ∧ ∀ x ∈ a :: l, l.foldl min a ≤ x := by
  intro l
  induction l with
  | nil => intro a; simp
  | cons b l ih =>
      intro a
      have h := ih (min a b)
      constructor
      · have hf : (b :: l).foldl min a = l.foldl min (min a b) := rfl
        rw [hf]
        rcases List.mem_cons.1 h.1 with hm | hm
        · rcases min_choice a b with hc | hc <;> rw [hm, hc] <;> simp
        · exact List.mem_cons_of_mem _ (List.mem_cons_of_mem _ hm)
      · intro x hx
        rcases List.mem_cons.1 hx with rfl | hx
        · calc (b :: l).foldl min x ≤ min x b :=
              h.2 _ (List.mem_cons_self _ _)
            _ ≤ x := min_le_left _ _
        · rcases List.mem_cons.1 hx with rfl | hx
          · calc l.foldl min (min a x) ≤ min a x :=
                h.2 _ (List.mem_cons_self _ _)
              _ ≤ x := min_le_right _ _
          · exact h.2 x (List.mem_cons_of_mem _ hx)

theorem foldl_max_spec {α : Type _} [LinearOrder α] :
    ∀ (l : List α) (a : α),
      l.foldl max a ∈ a :: l ∧ ∀ x ∈ a :: l, x ≤ l.foldl max a := by
  intro l
  induction l with
  | nil => intro a; simp
  | cons b l ih =>
      intro a
      have h := ih (max a b)
      constructor
      · have hf : (b :: l).foldl max a = l.foldl max (max a b) := rfl
        rw [hf]
        rcases List.mem_cons.1 h.1 with hm | hm
        · rcases max_choice a b with hc | hc <;> rw [hm, hc] <;> simp
        · exact List.mem_cons_of_mem _ (List.mem_cons_of_mem _ hm)
      · intro x hx
        rcases List.mem_cons.1 hx with rfl | hx
        · calc x ≤ max x b := le_max_left _ _
            _ ≤ l.foldl max (max x b) := h.2 _ (List.mem_cons_self _ _)
        · rcases List.mem_cons.1 hx with rfl | hx
          · calc x ≤ max a x := le_max_right _ _
              _ ≤ l.foldl max (max a x) := h.2 _ (List.mem_cons_self _ _)
          · exact h.2 x (List.mem_cons_of_mem _ hx)

/-! ### updateParent structure -/

theorem updateParent_eq_setFirst (tasks : List Task) (pid : Nat)
    (c : Task) (cs : List Task) (h : childrenOf tasks pid = c :: cs) :
    updateParent tasks pid
      = setFirst (fun t => decide (t.id = pid))
          (fun t =>
            { t with start := (cs.map Task.start).foldl min c.start,
                     end_ := (cs.map Task.end_).foldl max c.end_,
                     progress := ((c :: cs).map Task.progress).sum
                         / ((c :: cs).length : ℚ) })
          tasks := by
  unfold updateParent
  rw [h]

theorem updateParent_cases (tasks : List Task) (pid : Nat) :
    updateParent tasks pid = tasks ∨
    ∃ g : Task → Task,
      updateParent tasks pid
          = setFirst (fun t => decide (t.id = pid)) g tasks ∧
      ∀ t, skel (g t) = skel t := by
  cases h : childrenOf tasks pid with
  | nil =>
      left
      unfold updateParent
      rw [h]
  | cons c cs =>
      right
      exact ⟨_, updateParent_eq_setFirst tasks pid c cs h, fun t => rfl⟩

theorem updateParent_map_skel (tasks : List Task) (pid : Nat) :
    (updateParent tasks pid).map skel = tasks.map skel := by
  rcases updateParent_cases tasks pid with h | ⟨g, h, hg⟩
  · rw [h]
  · rw [h, setFirst_map _ hg]

theorem updateParent_map_id (tasks : List Task) (pid : Nat) :
    (updateParent tasks pid).map Task.id = tasks.map Task.id := by
  rcases updateParent_cases tasks pid with h | ⟨g, h, hg⟩
  · rw [h]
  · rw [h, setFirst_map _ (fun t => skel_to_id (hg t))]

theorem updateParent_map_parent (tasks : List Task) (pid : Nat) :
    (updateParent tasks pid).map Task.parent_id
      = tasks.map Task.parent_id := by
  rcases updateParent_cases tasks pid with h | ⟨g, h, hg⟩
  · rw [h]
  · rw [h, setFirst_map _ (fun t => skel_to_parent (hg t))]

theorem updateParent_map_idParent (tasks : List Task) (pid : Nat) :
    (updateParent tasks pid).map idParent = tasks.map idParent := by
  rcases updateParent_cases tasks pid with h | ⟨g, h, hg⟩
  · rw [h]
  · rw [h, setFirst_map _ (fun t => skel_to_idParent (hg t))]

theorem updateParent_length (tasks : List Task) (pid : Nat) :
    (updateParent tasks pid).length = tasks.length := by
  have := congrArg List.length (updateParent_map_skel tasks pid)
  simpa using this

theorem getElem?_map_congr {α β : Type _} {l l' : List α} {g : α → β}
    (h : l.map g = l'.map g) (k : Nat) :
    (l[k]?).map g = (l'[k]?).map g := by
  rw [← List.getElem?_map, ← List.getElem?_map, h]

/-! ### congruence of hierarchy notions under skeleton preservation -/

/-- Predicate `OneLevel` seen through the id/parent projection. -/
def OneLevelP (m : List (Nat × Option Nat)) : Prop :=
  ∀ x ∈ m, (∃ y ∈ m, y.2 = some x.1) → x.2 = none

theorem OneLevel_iff (tasks : List Task) :
    OneLevel tasks ↔ OneLevelP (tasks.map idParent) := by
  constructor
  · intro h x hx hex
    obtain ⟨t, ht, rfl⟩ := List.mem_map.1 hx
    obtain ⟨y, hy, hy2⟩ := hex
    obtain ⟨c, hc, rfl⟩ := List.mem_map.1 hy
    exact h t ht ⟨c, hc, hy2⟩
  · rintro h t ht ⟨c, hc, hcp⟩
    exact h (idParent t) (List.mem_map_of_mem _ ht)
      ⟨idParent c, List.mem_map_of_mem _ hc, hcp⟩

theorem OneLevel_congr {tasks tasks' : List Task}
    (h : tasks.map idParent = tasks'.map idParent) :
    OneLevel tasks → OneLevel tasks' := by
  rw [OneLevel_iff, OneLevel_iff, h]
  exact id

theorem exists_child_congr {tasks tasks' : List Task}
    (h : tasks.map Task.parent_id = tasks'.map Task.parent_id) (q : Nat) :
    (∃ c ∈ tasks, c.parent_id = some q)
      ↔ ∃ c ∈ tasks', c.parent_id = some q := by
  have h1 : (∃ c ∈ tasks, c.parent_id = some q)
      ↔ some q ∈ tasks.map Task.parent_id := List.mem_map.symm
  have h2 : (∃ c ∈ tasks', c.parent_id = some q)
      ↔ some q ∈ tasks'.map Task.parent_id := List.mem_map.symm
  rw [h1, h2, h]

theorem childrenOf_eq_nil_iff (tasks : List Task) (q : Nat) :
    childrenOf tasks q = [] ↔ ∀ c ∈ tasks, ¬ c.parent_id = some q := by
  simp [childrenOf, List.filter_eq_nil_iff]

theorem OneLevel.parent_none {tasks : List Task} (h : OneLevel tasks)
    {q : Nat} (hq : ∃ c ∈ tasks, c.parent_id = some q) :
    ∀ t ∈ tasks, t.id = q → t.parent_id = none := by
  intro t ht hid
  exact h t ht (by rw [hid]; exact hq)

theorem childrenOf_updateParent (tasks : List Task) (q : Nat)
    (hnone : ∀ t ∈ tasks, t.id = q → t.parent_id = none) (x : Nat) :
    childrenOf (updateParent tasks q) x = childrenOf tasks x := by
  rcases updateParent_cases tasks q with h | ⟨g, h, hg⟩
  · rw [h]
  · rw [h]
    unfold childrenOf
    apply filter_setFirst
    · intro a
      simp [skel_to_parent (hg a)]
    · intro a ha hpa
      have hid : a.id = q := by simpa using hpa
      simp [hnone a ha hid]

/-! ### firstIdx lemmas -/

theorem findIdx_congr {α β : Type _} (g : α → β) (pb : β → Bool) :
    ∀ (l l' : List α), l.map g = l'.map g →
      l.findIdx (fun a => pb (g a)) = l'.findIdx (fun a => pb (g a)) := by
  intro l
  induction l with
  | nil =>
      intro l' h
      cases l' with
      | nil => rfl
      | cons a t => simp at h
  | cons a t ih =>
      intro l' h
      cases l' with
      | nil => simp at h
      | cons a' t' =>
          simp only [List.map_cons, List.cons.injEq] at h
          rw [List.findIdx_cons, List.findIdx_cons, h.1, ih t' h.2]

theorem firstIdx_congr {tasks tasks' : List Task}
    (h : tasks.map Task.id = tasks'.map Task.id) (q : Nat) :
    firstIdx tasks q = firstIdx tasks' q :=
  findIdx_congr Task.id (fun i => decide (i = q)) tasks tasks' h

theorem firstIdx_prop {tasks : List Task} {q : Nat} {t : Task}
    (ht : tasks[firstIdx tasks q]? = some t) : t.id = q := by
  have h2 : tasks[tasks.findIdx (fun t => decide (t.id = q))]? = some t := ht
  have := List.findIdx_of_getElem?_eq_some h2
  simpa using this

theorem firstIdx_of_nodup {tasks : List Task}
    (hnd : (tasks.map Task.id).Nodup) :
    ∀ {j : Nat} {t : Task}, tasks[j]? = some t → firstIdx tasks t.id = j := by
  induction tasks with
  | nil => intro j t ht; simp at ht
  | cons a l ih =>
      intro j t ht
      simp only [List.map_cons, List.nodup_cons] at hnd
      cases j with
      | zero =>
          simp only [List.getElem?_cons_zero, Option.some.injEq] at ht
          subst ht
          unfold firstIdx
          rw [List.findIdx_cons]
          simp
      | succ j =>
          simp only [List.getElem?_cons_succ] at ht
          have hne : ¬ a.id = t.id := fun he =>
            hnd.1 (he ▸ List.mem_map_of_mem Task.id (List.getElem?_mem ht))
          have hd : decide (a.id = t.id) = false := by simp [hne]
          unfold firstIdx
          rw [List.findIdx_cons, hd]
          simp only [cond_false]
          have hih := ih hnd.2 ht
          unfold firstIdx at hih
          rw [hih]

theorem updateParent_getElem? (tasks : List Task) (q : Nat) (c : Task)
    (cs : List Task) (hcc : childrenOf tasks q = c :: cs) (j : Nat) :
    (updateParent tasks q)[j]? =
      if j = firstIdx tasks q
      then (tasks[j]?).map (fun t =>
        { t with start := (cs.map Task.start).foldl min c.start,
                 end_ := (cs.map Task.end_).foldl max c.end_,
                 progress := ((c :: cs).map Task.progress).sum
                     / ((c :: cs).length : ℚ) })
      else tasks[j]? := by
  rw [updateParent_eq_setFirst tasks q c cs hcc]
  exact setFirst_getElem? _ _ tasks j

theorem derivedTask_id (tasks : List Task) (t : Task) :
    (derivedTask tasks t).id = t.id := by
  unfold derivedTask
  cases hc : childrenOf tasks t.id <;> rfl

/-- Per-index characterisation of the `for pid in parent_ids` loop: under one
level of nesting, folding `updateParent` over any duplicate-free list of
referenced parent ids rewrites exactly the first task holding each processed
id with the values derived from its children (unchanged throughout the loop)
and leaves every other position alone. -/
theorem foldl_updateParent_getElem? (pids : List Nat) :
    ∀ (tasks : List Task), OneLevel tasks → pids.Nodup →
      (∀ q ∈ pids, ∃ c ∈ tasks, c.parent_id = some q) →
      ∀ (j : Nat) (t : Task), tasks[j]? = some t →
        (pids.foldl updateParent tasks)[j]? =
          some (if t.id ∈ pids ∧ j = firstIdx tasks t.id
                then derivedTask tasks t else t) := by
  induction pids with
  | nil =>
      intro tasks _ _ _ j t ht
      simp [ht]
  | cons q rest ih =>
      intro tasks hOL hnd href j t ht
      have hq : ∃ c ∈ tasks, c.parent_id = some q :=
        href q (List.mem_cons_self _ _)
      have hnone := hOL.parent_none hq
      have hmapid := updateParent_map_id tasks q
      have hmappar := updateParent_map_parent tasks q
      have hmapip := updateParent_map_idParent tasks q
      have hch : ∀ x, childrenOf (updateParent tasks q) x
          = childrenOf tasks x := childrenOf_updateParent tasks q hnone
      have hOL' : OneLevel (updateParent tasks q) :=
        OneLevel_congr hmapip.symm hOL
      have href' : ∀ r ∈ rest,
          ∃ c ∈ updateParent tasks q, c.parent_id = some r := by
        intro r hr
        exact (exists_child_congr hmappar r).2
          (href r (List.mem_cons_of_mem _ hr))
      rw [List.nodup_cons] at hnd
      have hstep : (q :: rest).foldl updateParent tasks
          = rest.foldl updateParent (updateParent tasks q) := rfl
      rw [hstep]
      obtain ⟨c, cs, hcc⟩ : ∃ c cs, childrenOf tasks q = c :: cs := by
        cases hc : childrenOf tasks q with
        | nil =>
            exfalso
            obtain ⟨c0, hc0, hcp⟩ := hq
            exact (childrenOf_eq_nil_iff tasks q).1 hc c0 hc0 hcp
        | cons c cs => exact ⟨c, cs, rfl⟩
      have hup := updateParent_getElem? tasks q c cs hcc j
      by_cases hj : j = firstIdx tasks q
      · have htid : t.id = q := by
          apply firstIdx_prop (q := q)
          rw [← hj]
          exact ht
        rw [if_pos hj, ht] at hup
        have hder : (updateParent tasks q)[j]? = some (derivedTask tasks t) := by
          rw [hup, Option.map_some']
          congr 1
          unfold derivedTask
          rw [htid, hcc]
        have hIH := ih (updateParent tasks q) hOL' hnd.2 href' j
          (derivedTask tasks t) hder
        rw [hIH]
        have hcond1 : ¬ ((derivedTask tasks t).id ∈ rest ∧
            j = firstIdx (updateParent tasks q) (derivedTask tasks t).id) := by
          rintro ⟨hmem, -⟩
          rw [derivedTask_id, htid] at hmem
          exact hnd.1 hmem
        rw [if_neg hcond1]
        have hcond2 : t.id ∈ q :: rest ∧ j = firstIdx tasks t.id := by
          refine ⟨?_, ?_⟩
          · rw [htid]; exact List.mem_cons_self _ _
          · rw [htid]; exact hj
        rw [if_pos hcond2]
      · rw [if_neg hj] at hup
        have ht1 : (updateParent tasks q)[j]? = some t := by rw [hup]; exact ht
        have hIH := ih (updateParent tasks q) hOL' hnd.2 href' j t ht1
        rw [hIH]
        by_cases hqid : t.id = q
        · have hc1 : ¬ (t.id ∈ rest ∧
              j = firstIdx (updateParent tasks q) t.id) := by
            rintro ⟨hmem, -⟩
            rw [hqid] at hmem
            exact hnd.1 hmem
          have hc2 : ¬ (t.id ∈ q :: rest ∧ j = firstIdx tasks t.id) := by
            rintro ⟨-, hj2⟩
            rw [hqid] at hj2
            exact hj hj2
          rw [if_neg hc1, if_neg hc2]
        · have hfi : firstIdx (updateParent tasks q) t.id
              = firstIdx tasks t.id := firstIdx_congr hmapid t.id
          have hmem_iff : t.id ∈ rest ↔ t.id ∈ q :: rest := by
            simp [List.mem_cons, hqid]
          by_cases hcnd : t.id ∈ rest ∧ j = firstIdx tasks t.id
          · have hcnd1 : t.id ∈ rest ∧
                j = firstIdx (updateParent tasks q) t.id := by
              refine ⟨hcnd.1, ?_⟩
              rw [hfi]
              exact hcnd.2
            rw [if_pos hcnd1, if_pos ⟨hmem_iff.1 hcnd.1, hcnd.2⟩]
            congr 1
            unfold derivedTask
            rw [hch t.id]
          · have hcnd1 : ¬ (t.id ∈ rest ∧
                j = firstIdx (updateParent tasks q) t.id) := by
              rw [hfi]
              exact hcnd
            have hcnd2 : ¬ (t.id ∈ q :: rest ∧ j = firstIdx tasks t.id) := by
              rintro ⟨hm, hj2⟩
              exact hcnd ⟨hmem_iff.2 hm, hj2⟩
            rw [if_neg hcnd1, if_neg hcnd2]

theorem derivedTask_of_nil {tasks : List Task} {t : Task}
    (h : childrenOf tasks t.id = []) : derivedTask tasks t = t := by
  unfold derivedTask
  rw [h]

theorem derivedTask_of_cons {tasks : List Task} {t c : Task} {cs : List Task}
    (h : childrenOf tasks t.id = c :: cs) :
    derivedTask tasks t =
      { t with start := (cs.map Task.start).foldl min c.start,
               end_ := (cs.map Task.end_).foldl max c.end_,
               progress := ((c :: cs).map Task.progress).sum
                   / ((c :: cs).length : ℚ) } := by
  unfold derivedTask
  rw [h]

theorem mem_parentIds (tasks : List Task) (q : Nat) :
    q ∈ parentIds tasks ↔ ∃ c ∈ tasks, c.parent_id = some q := by
  simp [parentIds, List.mem_dedup, List.mem_filterMap]

theorem parentIds_nodup (tasks : List Task) : (parentIds tasks).Nodup :=
  List.nodup_dedup _

/-- Per-index characterisation of `recalculate_parent_dates` on the task
list, under one level of nesting. -/
theorem recalcTasks_getElem? (tasks : List Task) (hOL : OneLevel tasks)
    (j : Nat) (t : Task) (ht : tasks[j]? = some t) :
    (recalcTasks tasks)[j]? =
      some (if t.id ∈ parentIds tasks ∧ j = firstIdx tasks t.id
            then derivedTask tasks t else t) :=
  foldl_updateParent_getElem? (parentIds tasks) tasks hOL
    (parentIds_nodup tasks) (fun q hq => (mem_parentIds tasks q).1 hq) j t ht

theorem foldl_updateParent_map {β : Type _} (g : Task → β)
    (hs : ∀ tasks pid, (updateParent tasks pid).map g = tasks.map g)
    (pids : List Nat) :
    ∀ tasks, (pids.foldl updateParent tasks).map g = tasks.map g := by
  induction pids with
  | nil => intro tasks; rfl
  | cons q rest ih => intro tasks; rw [List.foldl_cons, ih, hs]

theorem recalcTasks_map_skel (tasks : List Task) :
    (recalcTasks tasks).map skel = tasks.map skel :=
  foldl_updateParent_map skel updateParent_map_skel _ tasks

theorem recalcTasks_map_id (tasks : List Task) :
    (recalcTasks tasks).map Task.id = tasks.map Task.id :=
  foldl_updateParent_map Task.id updateParent_map_id _ tasks

theorem recalcTasks_map_parent (tasks : List Task) :
    (recalcTasks tasks).map Task.parent_id = tasks.map Task.parent_id :=
  foldl_updateParent_map Task.parent_id updateParent_map_parent _ tasks

theorem recalcTasks_map_idParent (tasks : List Task) :
    (recalcTasks tasks).map idParent = tasks.map idParent :=
  foldl_updateParent_map idParent updateParent_map_idParent _ tasks

theorem recalcTasks_length (tasks : List Task) :
    (recalcTasks tasks).length = tasks.length := by
  have := congrArg List.length (recalcTasks_map_skel tasks)
  simpa using this

theorem childrenOf_foldl (pids : List Nat) :
    ∀ tasks, OneLevel tasks →
      (∀ q ∈ pids, ∃ c ∈ tasks, c.parent_id = some q) →
      ∀ x, childrenOf (pids.foldl updateParent tasks) x
          = childrenOf tasks x := by
  induction pids with
  | nil => intro tasks _ _ x; rfl
  | cons q rest ih =>
      intro tasks hOL href x
      have hq := href q (List.mem_cons_self _ _)
      have hnone := hOL.parent_none hq
      have hmappar := updateParent_map_parent tasks q
      have hmapip := updateParent_map_idParent tasks q
      rw [List.foldl_cons,
        ih (updateParent tasks q) (OneLevel_congr hmapip.symm hOL)
          (fun r hr => (exists_child_congr hmappar r).2
            (href r (List.mem_cons_of_mem _ hr))),
        childrenOf_updateParent tasks q hnone]

theorem childrenOf_recalc (tasks : List Task) (hOL : OneLevel tasks)
    (x : Nat) : childrenOf (recalcTasks tasks) x = childrenOf tasks x :=
  childrenOf_foldl _ tasks hOL (fun _ hq => (mem_parentIds _ _).1 hq) x

/-- C2: under one level of nesting and unique task ids, for every task `t`:
if `t` has children then, in the recalculated list, the task at `t`'s position
has start equal to the minimum of its children's starts, end equal to the
maximum of its children's ends, and progress equal to the arithmetic mean of
its children's progress values (all other identifying fields kept); a task
with no current children (in particular a parent whose children were all
removed) is left completely unchanged. -/
theorem recalc_parent_derivation (tasks : List Task) (h1 : OneLevel tasks)
    (h2 : (tasks.map Task.id).Nodup) (j : Nat) (t : Task)
    (ht : tasks[j]? = some t) :
    (childrenOf tasks t.id = [] → (recalcTasks tasks)[j]? = some t) ∧
    ∀ c cs, childrenOf tasks t.id = c :: cs →
      ∃ t', (recalcTasks tasks)[j]? = some t' ∧
        t'.start ∈ (c :: cs).map Task.start ∧
        (∀ s ∈ (c :: cs).map Task.start, t'.start ≤ s) ∧
        t'.end_ ∈ (c :: cs).map Task.end_ ∧
        (∀ e ∈ (c :: cs).map Task.end_, e ≤ t'.end_) ∧
        t'.progress = ((c :: cs).map Task.progress).sum
            / ((c :: cs).length : ℚ) ∧
        t'.id = t.id := by
  have hmain := recalcTasks_getElem? tasks h1 j t ht
  constructor
  · intro hnil
    have hnotmem : ¬ t.id ∈ parentIds tasks := by
      rw [mem_parentIds]
      rintro ⟨c0, hc0, hcp⟩
      exact (childrenOf_eq_nil_iff tasks t.id).1 hnil c0 hc0 hcp
    rw [hmain, if_neg (fun h => hnotmem h.1)]
  · intro c cs hcc
    have hmem : t.id ∈ parentIds tasks := by
      rw [mem_parentIds]
      have hcmem : c ∈ childrenOf tasks t.id := by
        rw [hcc]
        exact List.mem_cons_self _ _
      unfold childrenOf at hcmem
      rw [List.mem_filter] at hcmem
      exact ⟨c, hcmem.1, by simpa using hcmem.2⟩
    have hfj : firstIdx tasks t.id = j := firstIdx_of_nodup h2 ht
    rw [hmain, if_pos ⟨hmem, hfj.symm⟩]
    have hd := derivedTask_of_cons hcc
    refine ⟨derivedTask tasks t, rfl, ?_, ?_, ?_, ?_, ?_, ?_⟩
    · rw [hd]
      exact (foldl_min_spec (cs.map Task.start) c.start).1
    · rw [hd]
      exact (foldl_min_spec (cs.map Task.start) c.start).2
    · rw [hd]
      exact (foldl_max_spec (cs.map Task.end_) c.end_).1
    · rw [hd]
      exact (foldl_max_spec (cs.map Task.end_) c.end_).2
    · rw [hd]
    · rw [hd]

/-- Concrete parent task for the C2 witness. -/
def wtP : Task :=
  ⟨0, "P", 0, 10, 0, none, none, false, TaskPriority.None, "",
   ⟨70, 130, 180, 255⟩, false⟩

/-- Concrete first child for the C2 witness. -/
def wtA : Task :=
  ⟨1, "A", 2, 5, 1 / 2, none, some 0, false, TaskPriority.None, "",
   ⟨70, 130, 180, 255⟩, false⟩

/-- Concrete second child for the C2 witness. -/
def wtB : Task :=
  ⟨2, "B", 1, 7, 1, none, some 0, false, TaskPriority.None, "",
   ⟨70, 130, 180, 255⟩, false⟩

/-- C2 witness: a parent with two children, derived values at position 0. -/
theorem recalc_parent_derivation_witness :
    ∃ t', (recalcTasks [wtP, wtA, wtB])[0]? = some t' ∧
      t'.start ∈ (wtA :: [wtB]).map Task.start ∧
      (∀ s ∈ (wtA :: [wtB]).map Task.start, t'.start ≤ s) ∧
      t'.end_ ∈ (wtA :: [wtB]).map Task.end_ ∧
      (∀ e ∈ (wtA :: [wtB]).map Task.end_, e ≤ t'.end_) ∧
      t'.progress = ((wtA :: [wtB]).map Task.progress).sum
          / ((wtA :: [wtB]).length : ℚ) ∧
      t'.id = wtP.id := by
  have h := recalc_parent_derivation [wtP, wtA, wtB]
    (by unfold OneLevel; decide) (by decide) 0 wtP rfl
  exact h.2 wtA [wtB] rfl

/-! ### Idempotence (C9) -/

theorem derivedTask_congr {tasks tasks' : List Task}
    (h : ∀ x, childrenOf tasks' x = childrenOf tasks x) (t : Task) :
    derivedTask tasks' t = derivedTask tasks t := by
  unfold derivedTask
  rw [h]

theorem derivedTask_idem (tasks : List Task) (t : Task) :
    derivedTask tasks (derivedTask tasks t) = derivedTask tasks t := by
  cases hcc : childrenOf tasks t.id with
  | nil => rw [derivedTask_of_nil hcc, derivedTask_of_nil hcc]
  | cons c cs =>
      have h1 := derivedTask_of_cons hcc
      rw [h1]
      have h2 : childrenOf tasks
          ({ t with start := (cs.map Task.start).foldl min c.start,
                    end_ := (cs.map Task.end_).foldl max c.end_,
                    progress := ((c :: cs).map Task.progress).sum
                        / ((c :: cs).length : ℚ) } : Task).id = c :: cs := hcc
      rw [derivedTask_of_cons h2]

theorem filterMap_parent_congr {tasks tasks' : List Task}
    (h : tasks.map Task.parent_id = tasks'.map Task.parent_id) :
    tasks.filterMap Task.parent_id = tasks'.filterMap Task.parent_id := by
  calc tasks.filterMap Task.parent_id
      = (tasks.map Task.parent_id).filterMap id := by
        rw [List.filterMap_map, Function.id_comp]
    _ = (tasks'.map Task.parent_id).filterMap id := by rw [h]
    _ = tasks'.filterMap Task.parent_id := by
        rw [List.filterMap_map, Function.id_comp]

theorem parentIds_congr {tasks tasks' : List Task}
    (h : tasks.map Task.parent_id = tasks'.map Task.parent_id) :
    parentIds tasks = parentIds tasks' := by
  unfold parentIds
  exact congrArg List.dedup (filterMap_parent_congr h)

/-- Running `recalculate_parent_dates` twice returns the exact same task list
as running it once whenever the hierarchy is one level deep. -/
theorem recalcTasks_idem (tasks : List Task) (hOL : OneLevel tasks) :
    recalcTasks (recalcTasks tasks) = recalcTasks tasks := by
  apply List.ext_getElem?
  intro j
  by_cases hj : j < tasks.length
  · obtain ⟨t, ht⟩ : ∃ t, tasks[j]? = some t :=
      ⟨tasks[j], List.getElem?_eq_getElem hj⟩
    have h1 := recalcTasks_getElem? tasks hOL j t ht
    have hOL' : OneLevel (recalcTasks tasks) :=
      OneLevel_congr (recalcTasks_map_idParent tasks).symm hOL
    have h2 := recalcTasks_getElem? (recalcTasks tasks) hOL' j _ h1
    rw [h2, h1]
    congr 1
    have hpe : parentIds (recalcTasks tasks) = parentIds tasks :=
      parentIds_congr (recalcTasks_map_parent tasks)
    have hfe : ∀ x, firstIdx (recalcTasks tasks) x = firstIdx tasks x :=
      fun x => firstIdx_congr (recalcTasks_map_id tasks) x
    have hce : ∀ x, childrenOf (recalcTasks tasks) x = childrenOf tasks x :=
      childrenOf_recalc tasks hOL
    have hrid : (if t.id ∈ parentIds tasks ∧ j = firstIdx tasks t.id
        then derivedTask tasks t else t).id = t.id := by
      split_ifs
      · exact derivedTask_id tasks t
      · rfl
    by_cases hcnd : t.id ∈ parentIds tasks ∧ j = firstIdx tasks t.id
    · have hr_eq : (if t.id ∈ parentIds tasks ∧ j = firstIdx tasks t.id
          then derivedTask tasks t else t) = derivedTask tasks t :=
        if_pos hcnd
      have hcnd' : (if t.id ∈ parentIds tasks ∧ j = firstIdx tasks t.id
            then derivedTask tasks t else t).id ∈ parentIds (recalcTasks tasks)
          ∧ j = firstIdx (recalcTasks tasks)
              (if t.id ∈ parentIds tasks ∧ j = firstIdx tasks t.id
               then derivedTask tasks t else t).id := by
        rw [hrid, hpe, hfe]
        exact hcnd
      rw [if_pos hcnd', derivedTask_congr hce, hr_eq, derivedTask_idem]
    · have hcnd' : ¬ ((if t.id ∈ parentIds tasks ∧ j = firstIdx tasks t.id
            then derivedTask tasks t else t).id ∈ parentIds (recalcTasks tasks)
          ∧ j = firstIdx (recalcTasks tasks)
              (if t.id ∈ parentIds tasks ∧ j = firstIdx tasks t.id
               then derivedTask tasks t else t).id) := by
        rw [hrid, hpe, hfe]
        exact hcnd
      rw [if_neg hcnd']
  · have hlen1 : (recalcTasks tasks).length = tasks.length :=
      recalcTasks_length tasks
    have hlen2 : (recalcTasks (recalcTasks tasks)).length = tasks.length := by
      rw [recalcTasks_length, hlen1]
    rw [List.getElem?_eq_none (by omega), List.getElem?_eq_none (by omega)]

/-- C9: under one level of nesting, a second call to
`recalculate_parent_dates` yields exactly the same start, end and progress at
every position (indeed the same task list) as the first call. -/
theorem recalc_idempotent (tasks : List Task) (h1 : OneLevel tasks)
    (j : Nat) (t' : Task) (ht : (recalcTasks tasks)[j]? = some t') :
    ∃ t'', (recalcTasks (recalcTasks tasks))[j]? = some t'' ∧
      t''.start = t'.start ∧ t''.end_ = t'.end_ ∧
      t''.progress = t'.progress :=
  ⟨t', by rw [recalcTasks_idem tasks h1]; exact ht, rfl, rfl, rfl⟩

/-- C9 witness: the second recalculation reproduces the first one's values at
the position of child task `wtA`. -/
theorem recalc_idempotent_witness :
    ∃ t'', (recalcTasks (recalcTasks [wtP, wtA, wtB]))[1]? = some t'' ∧
      t''.start = wtA.start ∧ t''.end_ = wtA.end_ ∧
      t''.progress = wtA.progress := by
  have h := recalcTasks_getElem? [wtP, wtA, wtB]
    (by unfold OneLevel; decide) 1 wtA rfl
  have hcond : ¬ (wtA.id ∈ parentIds [wtP, wtA, wtB]
      ∧ 1 = firstIdx [wtP, wtA, wtB] wtA.id) := by decide
  rw [if_neg hcond] at h
  exact recalc_idempotent [wtP, wtA, wtB] (by unfold OneLevel; decide) 1 wtA h

/-! ### Frame property (C10) -/

theorem childrenOf_eq_nil_congr {tasks tasks' : List Task}
    (h : tasks.map Task.parent_id = tasks'.map Task.parent_id) (x : Nat) :
    childrenOf tasks x = [] ↔ childrenOf tasks' x = [] := by
  rw [childrenOf_eq_nil_iff, childrenOf_eq_nil_iff]
  constructor
  · intro hall c' hc' hp'
    obtain ⟨c, hc, hp⟩ := (exists_child_congr h x).2 ⟨c', hc', hp'⟩
    exact hall c hc hp
  · intro hall c hc hp
    obtain ⟨c', hc', hp'⟩ := (exists_child_congr h x).1 ⟨c, hc, hp⟩
    exact hall c' hc' hp'

/-- Frame property of the recalculation loop, with no hypotheses at all: at
every position the task keeps every field other than start / end / progress,
and a task whose id has no children is left completely untouched. -/
theorem foldl_updateParent_frame (pids : List Nat) :
    ∀ (tasks : List Task) (j : Nat) (t : Task), tasks[j]? = some t →
      ∃ t', (pids.foldl updateParent tasks)[j]? = some t' ∧
        skel t' = skel t ∧
        (childrenOf tasks t.id = [] → t' = t) := by
  induction pids with
  | nil => intro tasks j t ht; exact ⟨t, ht, rfl, fun _ => rfl⟩
  | cons q rest ih =>
      intro tasks j t ht
      have hmappar := updateParent_map_parent tasks q
      cases hcq : childrenOf tasks q with
      | nil =>
          have hid : updateParent tasks q = tasks := by
            unfold updateParent
            rw [hcq]
          rw [List.foldl_cons, hid]
          exact ih tasks j t ht
      | cons c cs =>
          rw [List.foldl_cons]
          have hup := updateParent_getElem? tasks q c cs hcq j
          by_cases hj : j = firstIdx tasks q
          · rw [if_pos hj, ht, Option.map_some'] at hup
            have htid : t.id = q := by
              apply firstIdx_prop (q := q)
              rw [← hj]
              exact ht
            have hne : ¬ childrenOf tasks t.id = [] := by
              rw [htid, hcq]
              simp
            obtain ⟨t', h1, h2, -⟩ := ih (updateParent tasks q) j _ hup
            refine ⟨t', h1, ?_, fun hnil => absurd hnil hne⟩
            rw [h2]
            rfl
          · rw [if_neg hj] at hup
            have ht1 : (updateParent tasks q)[j]? = some t := by
              rw [hup]
              exact ht
            obtain ⟨t', h1, h2, h3⟩ := ih (updateParent tasks q) j t ht1
            exact ⟨t', h1, h2, fun hnil =>
              h3 ((childrenOf_eq_nil_congr hmappar t.id).2 hnil)⟩

/-- C10: `recalculate_parent_dates` leaves the dependency list, the project
metadata, the task count and order, every non-derived field of every task,
and every childless task entirely unchanged; only start / end / progress of
tasks that have at least one child can change. -/
theorem recalc_frame (p : Project) :
    (Project.recalculate_parent_dates p).dependencies = p.dependencies ∧
    (Project.recalculate_parent_dates p).version = p.version ∧
    (Project.recalculate_parent_dates p).name = p.name ∧
    (Project.recalculate_parent_dates p).tasks.length = p.tasks.length ∧
    (Project.recalculate_parent_dates p).tasks.map skel
        = p.tasks.map skel ∧
    ∀ (j : Nat) (t : Task), p.tasks[j]? = some t →
      ∃ t', (Project.recalculate_parent_dates p).tasks[j]? = some t' ∧
        skel t' = skel t ∧
        (childrenOf p.tasks t.id = [] → t' = t) := by
  refine ⟨rfl, rfl, rfl, recalcTasks_length _, recalcTasks_map_skel _, ?_⟩
  intro j t ht
  exact foldl_updateParent_frame (parentIds p.tasks) p.tasks j t ht

/-- A concrete project for the C10 witness. -/
def wproj : Project := ⟨3, "Untitled Project", [wtP, wtA, wtB], [dep0], 0, 0⟩

/-- C10 witness: dependencies and skeletons unchanged on a concrete project,
and the childless task at position 1 is untouched. -/
theorem recalc_frame_witness :
    (Project.recalculate_parent_dates wproj).dependencies
        = wproj.dependencies ∧
    (Project.recalculate_parent_dates wproj).tasks.map skel
        = wproj.tasks.map skel ∧
    ∃ t', (Project.recalculate_parent_dates wproj).tasks[1]? = some t' ∧
      skel t' = skel wtA ∧ (childrenOf wproj.tasks wtA.id = [] → t' = wtA) := by
  have h := recalc_frame wproj
  exact ⟨h.1, h.2.2.2.2.1, h.2.2.2.2.2 1 wtA rfl⟩

/-! ## Grouped sort (`Project::sort_tasks_grouped`) -/

/-- The top-level tasks, in original order
(`filter(|t| t.parent_id.is_none())`). -/
def topLevel (tasks : List Task) : List Task :=
  tasks.filter fun t => decide (t.parent_id = none)

/-- Embedding of `Project::sort_tasks_grouped`: each top-level task followed by its
children, then any task not yet present (checked by id) appended in original
order. -/
def sort_tasks_grouped (tasks : List Task) : List Task :=
  let result := (topLevel tasks).foldl
    (fun res p => (res ++ [p]) ++ childrenOf tasks p.id) []
  tasks.foldl
    (fun res t =>
      if res.any (fun r => decide (r.id = t.id)) then res else res ++ [t])
    result

/-- The grouped prefix the first loop builds: every top-level task directly
followed by its children, groups in original top-level order. -/
def groupedTasks (tasks : List Task) : List Task :=
  (topLevel tasks).flatMap fun p => p :: childrenOf tasks p.id

/-- A task covered by the grouped pass: either top-level, or a child of some
top-level task. -/
def inGroups (tasks : List Task) (t : Task) : Prop :=
  t.parent_id = none ∨
    ∃ p ∈ tasks, p.parent_id = none ∧ t.parent_id = some p.id

instance (tasks : List Task) (t : Task) : Decidable (inGroups tasks t) := by
  unfold inGroups
  infer_instance

theorem foldl_groups (tasks : List Task) :
    ∀ (tl init : List Task),
      tl.foldl (fun res p => (res ++ [p]) ++ childrenOf tasks p.id) init
        = init ++ tl.flatMap (fun p => p :: childrenOf tasks p.id) := by
  intro tl
  induction tl with
  | nil => intro init; simp
  | cons p tl ih =>
      intro init
      rw [List.foldl_cons, ih]
      simp [List.flatMap_cons, List.append_assoc]

theorem foldl_orphan :
    ∀ (l acc : List Task), (l.map Task.id).Nodup →
      l.foldl (fun res t =>
          if res.any (fun r => decide (r.id = t.id)) then res else res ++ [t])
        acc
      = acc ++ l.filter
          (fun t => ! acc.any (fun r => decide (r.id = t.id))) := by
  intro l
  induction l with
  | nil => intro acc _; simp
  | cons t l ih =>
      intro acc hnd
      rw [List.map_cons, List.nodup_cons] at hnd
      rw [List.foldl_cons, List.filter_cons]
      by_cases hc : acc.any (fun r => decide (r.id = t.id)) = true
      · rw [if_pos hc, ih acc hnd.2, hc]
        simp
      · have hcf : acc.any (fun r => decide (r.id = t.id)) = false := by
          simpa using hc
        rw [if_neg hc, ih (acc ++ [t]) hnd.2, hcf]
        have hfc : l.filter
            (fun x => ! (acc ++ [t]).any (fun r => decide (r.id = x.id)))
            = l.filter (fun x => ! acc.any (fun r => decide (r.id = x.id))) := by
          apply List.filter_congr
          intro x hx
          have hne : ¬ t.id = x.id := fun he =>
            hnd.1 (he ▸ List.mem_map_of_mem Task.id hx)
          simp [List.any_append, hne]
        rw [hfc]
        simp [List.append_assoc]

theorem sort_grouped_eq (tasks : List Task)
    (hnd : (tasks.map Task.id).Nodup) :
    sort_tasks_grouped tasks
      = groupedTasks tasks ++ tasks.filter
          (fun t => ! (groupedTasks tasks).any
            (fun r => decide (r.id = t.id))) := by
  show tasks.foldl
      (fun res t =>
        if res.any (fun r => decide (r.id = t.id)) then res else res ++ [t])
      ((topLevel tasks).foldl
        (fun res p => (res ++ [p]) ++ childrenOf tasks p.id) []) = _
  rw [foldl_groups tasks (topLevel tasks) [], List.nil_append,
    foldl_orphan tasks _ hnd]
  rfl

theorem mem_groupedTasks (tasks : List Task) (x : Task) :
    x ∈ groupedTasks tasks ↔ x ∈ tasks ∧ inGroups tasks x := by
  unfold groupedTasks
  rw [List.mem_flatMap]
  constructor
  · rintro ⟨p, hp, hx⟩
    unfold topLevel at hp
    rw [List.mem_filter] at hp
    have hpn : p.parent_id = none := by simpa using hp.2
    rcases List.mem_cons.1 hx with rfl | hx
    · exact ⟨hp.1, Or.inl hpn⟩
    · unfold childrenOf at hx
      rw [List.mem_filter] at hx
      exact ⟨hx.1, Or.inr ⟨p, hp.1, hpn, by simpa using hx.2⟩⟩
  · rintro ⟨hxt, hx | ⟨p, hpt, hpn, hxp⟩⟩
    · refine ⟨x, ?_, List.mem_cons_self _ _⟩
      unfold topLevel
      rw [List.mem_filter]
      exact ⟨hxt, by simpa using hx⟩
    · refine ⟨p, ?_, List.mem_cons_of_mem _ ?_⟩
      · unfold topLevel
        rw [List.mem_filter]
        exact ⟨hpt, by simpa using hpn⟩
      · unfold childrenOf
        rw [List.mem_filter]
        exact ⟨hxt, by simpa using hxp⟩

theorem nodup_map_inj {l : List Task} (hnd : (l.map Task.id).Nodup) :
    ∀ a ∈ l, ∀ b ∈ l, a.id = b.id → a = b := by
  induction l with
  | nil => intro a ha; cases ha
  | cons x xs ih =>
      intro a ha b hb he
      rw [List.map_cons, List.nodup_cons] at hnd
      rcases List.mem_cons.1 ha with rfl | ha2
      · rcases List.mem_cons.1 hb with rfl | hb2
        · rfl
        · exfalso
          apply hnd.1
          rw [he]
          exact List.mem_map_of_mem Task.id hb2
      · rcases List.mem_cons.1 hb with rfl | hb2
        · exfalso
          apply hnd.1
          rw [← he]
          exact List.mem_map_of_mem Task.id ha2
        · exact ih hnd.2 a ha2 b hb2 he

theorem anyId_groupedTasks (tasks : List Task)
    (hnd : (tasks.map Task.id).Nodup) (t : Task) (ht : t ∈ tasks) :
    ((groupedTasks tasks).any (fun r => decide (r.id = t.id)) = true)
      ↔ inGroups tasks t := by
  rw [List.any_eq_true]
  constructor
  · rintro ⟨r, hr, hrid⟩
    have hrid' : r.id = t.id := by simpa using hrid
    obtain ⟨hrt, hrg⟩ := (mem_groupedTasks tasks r).1 hr
    have hre : r = t := nodup_map_inj hnd r hrt t ht hrid'
    rw [hre] at hrg
    exact hrg
  · intro hg
    exact ⟨t, (mem_groupedTasks tasks t).2 ⟨ht, hg⟩, by simp⟩

theorem rest_filter_eq (tasks : List Task)
    (hnd : (tasks.map Task.id).Nodup) :
    tasks.filter
        (fun t => ! (groupedTasks tasks).any (fun r => decide (r.id = t.id)))
      = tasks.filter (fun t => decide (¬ inGroups tasks t)) := by
  apply List.filter_congr
  intro x hx
  have h := anyId_groupedTasks tasks hnd x hx
  by_cases hg : inGroups tasks x
  · rw [h.2 hg]
    simp [hg]
  · have hfalse : (groupedTasks tasks).any
        (fun r => decide (r.id = x.id)) = false := by
      rcases hb : (groupedTasks tasks).any (fun r => decide (r.id = x.id)) with - | -
      · rfl
      · exact absurd (h.1 hb) hg
    rw [hfalse]
    simp [hg]

theorem groupedTasks_nodup (tasks : List Task)
    (hnd : (tasks.map Task.id).Nodup) : (groupedTasks tasks).Nodup := by
  apply List.Nodup.of_map Task.id
  unfold groupedTasks
  rw [List.map_flatMap]
  rw [List.nodup_flatMap]
  have htop_sub : List.Sublist (topLevel tasks) tasks :=
    List.filter_sublist tasks
  have htop_id_nodup : ((topLevel tasks).map Task.id).Nodup :=
    List.Sublist.nodup (htop_sub.map Task.id) hnd
  constructor
  · intro p hp
    unfold topLevel at hp
    rw [List.mem_filter] at hp
    have hpn : p.parent_id = none := by simpa using hp.2
    simp only [List.map_cons]
    rw [List.nodup_cons]
    constructor
    · intro hmem
      obtain ⟨c, hc, hcid⟩ := List.mem_map.1 hmem
      unfold childrenOf at hc
      rw [List.mem_filter] at hc
      have hcp : c.parent_id = some p.id := by simpa using hc.2
      have hce : c = p := nodup_map_inj hnd c hc.1 p hp.1 hcid
      rw [hce, hpn] at hcp
      cases hcp
    · have hsub : List.Sublist ((childrenOf tasks p.id).map Task.id)
          (tasks.map Task.id) :=
        (List.filter_sublist tasks).map Task.id
      exact List.Sublist.nodup hsub hnd
  · have hpw : (topLevel tasks).Pairwise (fun a b => a.id ≠ b.id) :=
      List.pairwise_map.1 htop_id_nodup
    apply List.Pairwise.imp_of_mem ?_ hpw
    intro a b hat hbt hab
    have hamem : a ∈ tasks ∧ a.parent_id = none := by
      unfold topLevel at hat
      rw [List.mem_filter] at hat
      exact ⟨hat.1, by simpa using hat.2⟩
    have hbmem : b ∈ tasks ∧ b.parent_id = none := by
      unfold topLevel at hbt
      rw [List.mem_filter] at hbt
      exact ⟨hbt.1, by simpa using hbt.2⟩
    intro x hxa hxb
    simp only [List.map_cons] at hxa hxb
    have hchild : ∀ (p : Task), x ∈ (childrenOf tasks p.id).map Task.id →
        ∃ c ∈ tasks, c.parent_id = some p.id ∧ c.id = x := by
      intro p hm
      obtain ⟨c, hc, hcid⟩ := List.mem_map.1 hm
      unfold childrenOf at hc
      rw [List.mem_filter] at hc
      exact ⟨c, hc.1, by simpa using hc.2, hcid⟩
    rcases List.mem_cons.1 hxa with rfl | hxa
    · rcases List.mem_cons.1 hxb with he | hxb
      · exact hab he
      · obtain ⟨c, hct, hcp, hcid⟩ := hchild b hxb
        have : c = a := nodup_map_inj hnd c hct a hamem.1 hcid
        rw [this, hamem.2] at hcp
        cases hcp
    · rcases List.mem_cons.1 hxb with rfl | hxb
      · obtain ⟨c, hct, hcp, hcid⟩ := hchild a hxa
        have : c = b := nodup_map_inj hnd c hct b hbmem.1 hcid
        rw [this, hbmem.2] at hcp
        cases hcp
      · obtain ⟨c, hct, hcp, hcid⟩ := hchild a hxa
        obtain ⟨c', hct', hcp', hcid'⟩ := hchild b hxb
        have : c = c' := nodup_map_inj hnd c hct c' hct' (by rw [hcid, hcid'])
        rw [this, hcp'] at hcp
        exact hab (by injection hcp with h; rw [h])

theorem groupedTasks_perm (tasks : List Task)
    (hnd : (tasks.map Task.id).Nodup) :
    (groupedTasks tasks).Perm
      (tasks.filter (fun t => decide (inGroups tasks t))) := by
  rw [List.perm_ext_iff_of_nodup (groupedTasks_nodup tasks hnd)
    (List.Sublist.nodup (List.filter_sublist tasks) (List.Nodup.of_map _ hnd))]
  intro x
  rw [mem_groupedTasks, List.mem_filter]
  simp

/-- C3: with unique task ids, `sort_tasks_grouped` returns exactly the
grouped prefix (each top-level task immediately followed, contiguously, by
its children, preserving original top-level order and original child order)
followed by the remaining tasks in original relative order; the result is a
permutation of the input (no task dropped, duplicated, or modified); and
every task whose parent id resolves to no existing task is among the
appended remainder. -/
theorem sort_grouped_characterization (tasks : List Task)
    (hnd : (tasks.map Task.id).Nodup) :
    sort_tasks_grouped tasks
        = groupedTasks tasks
          ++ tasks.filter (fun t => decide (¬ inGroups tasks t)) ∧
    (sort_tasks_grouped tasks).Perm tasks ∧
    ∀ t ∈ tasks, ∀ q, t.parent_id = some q →
      (∀ u ∈ tasks, ¬ u.id = q) →
      t ∈ tasks.filter (fun t => decide (¬ inGroups tasks t)) := by
  have heq : sort_tasks_grouped tasks
      = groupedTasks tasks
        ++ tasks.filter (fun t => decide (¬ inGroups tasks t)) := by
    rw [sort_grouped_eq tasks hnd, rest_filter_eq tasks hnd]
  refine ⟨heq, ?_, ?_⟩
  · rw [heq]
    have h1 : (groupedTasks tasks
          ++ tasks.filter (fun t => decide (¬ inGroups tasks t))).Perm
        ((tasks.filter (fun t => decide (inGroups tasks t)))
          ++ tasks.filter (fun t => decide (¬ inGroups tasks t))) :=
      (groupedTasks_perm tasks hnd).append_right _
    refine h1.trans ?_
    have h2 := List.filter_append_perm
      (fun t => decide (inGroups tasks t)) tasks
    refine List.Perm.trans ?_ h2
    apply List.Perm.append_left
    apply List.Perm.of_eq
    apply List.filter_congr
    intro x _
    simp
  · intro t ht q hq hdangling
    rw [List.mem_filter]
    refine ⟨ht, ?_⟩
    simp only [decide_eq_true_eq]
    rintro (hnone | ⟨p, hpt, -, hps⟩)
    · rw [hq] at hnone
      cases hnone
    · rw [hq] at hps
      injection hps with hps
      exact hdangling p hpt hps.symm

/-- A dangling-parent task for the C3 witness (parent id 99 resolves to no
task). -/
def wtD : Task :=
  ⟨3, "D", 0, 1, 0, none, some 99, false, TaskPriority.None, "",
   ⟨70, 130, 180, 255⟩, false⟩

/-- C3 witness: grouped characterisation on a concrete list with a dangling
task, which ends up in the appended remainder. -/
theorem sort_grouped_characterization_witness :
    sort_tasks_grouped [wtP, wtA, wtB, wtD]
        = groupedTasks [wtP, wtA, wtB, wtD]
          ++ [wtP, wtA, wtB, wtD].filter
            (fun t => decide (¬ inGroups [wtP, wtA, wtB, wtD] t)) ∧
    wtD ∈ [wtP, wtA, wtB, wtD].filter
        (fun t => decide (¬ inGroups [wtP, wtA, wtB, wtD] t)) := by
  have h := sort_grouped_characterization [wtP, wtA, wtB, wtD] (by decide)
  exact ⟨h.1, h.2.2 wtD (by simp) 99 rfl (by decide)⟩

/-! ## TimelineViewport (`src/model/timeline.rs`) -/

/-- Embedding of `TimelineScale` from `src/model/timeline.rs`. -/
inductive TimelineScale where
  | Hours
  | Days
  | Weeks
  | Months
deriving DecidableEq

/-- Embedding of `TimelineViewport` from `src/model/timeline.rs` (`end` is a Lean keyword,
the field is `end_`; the two `f32` zoom factors carry the exact rational value
of the stored binary32 number). -/
structure TimelineViewport where
  start : Int
  end_ : Int
  scale : TimelineScale
  pixels_per_day : ℚ
  pixels_per_hour : ℚ
deriving DecidableEq

/-- Embedding of `TimelineViewport::new`. -/
def TimelineViewport.new (start end_ : Int) : TimelineViewport :=
  ⟨start, end_, TimelineScale.Weeks, 18, 18 / 24⟩

/-- Embedding of Rust integer rounding for `f32`: round a rational to the
nearest integer with ties to even, the IEEE-754 default rounding mode used by
every `f32` arithmetic operation and by the `i64`-to-`f32` cast. -/
def rne (x : ℚ) : ℤ :=
  if x - ⌊x⌋ < 1/2 then ⌊x⌋
  else if 1/2 < x - ⌊x⌋ then ⌊x⌋ + 1
  else if ⌊x⌋ % 2 = 0 then ⌊x⌋ else ⌊x⌋ + 1

/-- Binary exponent of an IEEE-754 binary32 value of positive magnitude `a`:
the base-2 logarithm clamped below at -126, the subnormal threshold. -/
def f32exp (a : ℚ) : ℤ := max (Int.log 2 a) (-126)

/-- Positive magnitude `a` rounded to the nearest binary32 value: the
significand is `a` scaled into 24-bit position at the binary32 exponent and
rounded to the nearest integer, ties to even. -/
def f32val (a : ℚ) : ℚ :=
  (rne (a * 2 ^ ((23:ℤ) - f32exp a)) : ℚ) * 2 ^ (f32exp a - 23)

/-- Result of one Rust `f32` operation whose exact rational result is `q`:
the nearest representable binary32 value (round-to-nearest-even, with gradual
underflow below `2^(-126)`), the overflow threshold `2^128` standing in for
the infinity produced on overflow. -/
def rnd32 (q : ℚ) : ℚ :=
  if q = 0 then 0
  else (if 0 ≤ q then 1 else -1) * min (f32val |q|) ((2:ℚ) ^ (128:ℤ))

/-- Embedding of `TimelineViewport::datetime_to_x` (= the spec's
`to_pixels`): the elapsed whole seconds from the viewport start are cast to
`f32`, divided by the seconds per hour (or per day), and multiplied by the
zoom factor of the active scale; each `f32` step rounds its exact rational
result through `rnd32`. -/
def datetime_to_x (v : TimelineViewport) (dt : Int) : ℚ :=
  match v.scale with
  | TimelineScale.Hours =>
      rnd32 (rnd32 (rnd32 ((dt - v.start : ℤ) : ℚ) / 3600) * v.pixels_per_hour)
  | _ =>
      rnd32 (rnd32 (rnd32 ((dt - v.start : ℤ) : ℚ) / 86400) * v.pixels_per_day)

/-- Rust `as i64` on a float: truncation toward zero. -/
def ratTrunc (q : ℚ) : ℤ := if 0 ≤ q then ⌊q⌋ else -⌊-q⌋

/-- Embedding of `TimelineViewport::x_to_datetime` (= the spec's
`from_pixels`): the pixel offset is divided by the zoom factor and scaled
back to seconds, both in `f32` (each step rounding through `rnd32`), then
truncated to `i64` and added to the viewport start. -/
def x_to_datetime (v : TimelineViewport) (x : ℚ) : Int :=
  match v.scale with
  | TimelineScale.Hours =>
      v.start + ratTrunc (rnd32 (rnd32 (x / v.pixels_per_hour) * 3600))
  | _ =>
      v.start + ratTrunc (rnd32 (rnd32 (x / v.pixels_per_day) * 86400))

/-- Embedding of `TimelineViewport::update_scale_for_zoom`. -/
def update_scale_for_zoom (v : TimelineViewport) : TimelineViewport :=
  { v with scale :=
      if 50 < v.pixels_per_day then TimelineScale.Hours
      else if 10 < v.pixels_per_day then TimelineScale.Days
      else if 3 < v.pixels_per_day then TimelineScale.Weeks
      else TimelineScale.Months }

/-- Embedding of `TimelineViewport::zoom_in`: multiply pixels-per-day by 1.2, clamp above
at 120, recompute pixels-per-hour, then recompute the scale. -/
def zoom_in (v : TimelineViewport) : TimelineViewport :=
  let ppd := min (v.pixels_per_day * 1.2) 120
  update_scale_for_zoom
    { v with pixels_per_day := ppd, pixels_per_hour := ppd / 24 }

/-- Embedding of `TimelineViewport::zoom_out`: divide pixels-per-day by 1.2, clamp below
at 1, recompute pixels-per-hour, then recompute the scale. -/
def zoom_out (v : TimelineViewport) : TimelineViewport :=
  let ppd := max (v.pixels_per_day / 1.2) 1
  update_scale_for_zoom
    { v with pixels_per_day := ppd, pixels_per_hour := ppd / 24 }

/-- Embedding of `TimelineViewport::total_width`. -/
def total_width (v : TimelineViewport) : ℚ := datetime_to_x v v.end_

/-- The display scale agrees with the fixed thresholds on the current
pixels-per-day value: over 50 is Hours, (10, 50] is Days, (3, 10] is Weeks,
at most 3 is Months. -/
def ScaleMatchesZoom (v : TimelineViewport) : Prop :=
  (v.scale = TimelineScale.Hours ↔ 50 < v.pixels_per_day) ∧
  (v.scale = TimelineScale.Days ↔
    10 < v.pixels_per_day ∧ v.pixels_per_day ≤ 50) ∧
  (v.scale = TimelineScale.Weeks ↔
    3 < v.pixels_per_day ∧ v.pixels_per_day ≤ 10) ∧
  (v.scale = TimelineScale.Months ↔ v.pixels_per_day ≤ 3)

theorem update_scale_matches (v : TimelineViewport) :
    ScaleMatchesZoom (update_scale_for_zoom v) := by
  unfold ScaleMatchesZoom update_scale_for_zoom
  dsimp only
  split_ifs with h1 h2 h3
  · exact ⟨iff_of_true rfl h1,
      iff_of_false (by simp) (by rintro ⟨-, h⟩; linarith),
      iff_of_false (by simp) (by rintro ⟨-, h⟩; linarith),
      iff_of_false (by simp) (by intro h; linarith)⟩
  · exact ⟨iff_of_false (by simp) h1,
      iff_of_true rfl ⟨h2, by linarith⟩,
      iff_of_false (by simp) (by rintro ⟨-, h⟩; linarith),
      iff_of_false (by simp) (by intro h; linarith)⟩
  · exact ⟨iff_of_false (by simp) h1,
      iff_of_false (by simp) (by rintro ⟨h, -⟩; exact h2 h),
      iff_of_true rfl ⟨h3, by linarith⟩,
      iff_of_false (by simp) (by intro h; linarith)⟩
  · exact ⟨iff_of_false (by simp) h1,
      iff_of_false (by simp) (by rintro ⟨h, -⟩; exact h2 h),
      iff_of_false (by simp) (by rintro ⟨h, -⟩; exact h3 h),
      iff_of_true rfl (by linarith)⟩

/-- C7: `zoom_in` multiplies pixels-per-day by 1.2 clamping at the configured
maximum (120) and `zoom_out` divides by 1.2 clamping at the configured minimum
(1); for every state whose pixels-per-day lies in the configured [1, 120]
range the result is exactly the multiplied (resp. divided) value clamped to
[1, 120]; both recompute pixels-per-hour as the new pixels-per-day / 24 and
set the display scale as a pure function of the new pixels-per-day alone, with
thresholds over 50 Hours, (10, 50] Days, (3, 10] Weeks, at most 3 Months. -/
theorem zoom_spec (v : TimelineViewport) :
    (zoom_in v).pixels_per_day = min (v.pixels_per_day * 1.2) 120 ∧
    (zoom_out v).pixels_per_day = max (v.pixels_per_day / 1.2) 1 ∧
    (1 ≤ v.pixels_per_day → v.pixels_per_day ≤ 120 →
      (zoom_in v).pixels_per_day
          = min (max (v.pixels_per_day * 1.2) 1) 120 ∧
      (zoom_out v).pixels_per_day
          = min (max (v.pixels_per_day / 1.2) 1) 120) ∧
    (zoom_in v).pixels_per_hour = (zoom_in v).pixels_per_day / 24 ∧
    (zoom_out v).pixels_per_hour = (zoom_out v).pixels_per_day / 24 ∧
    ScaleMatchesZoom (zoom_in v) ∧
    ScaleMatchesZoom (zoom_out v) := by
  refine ⟨rfl, rfl, ?_, rfl, rfl, ?_, ?_⟩
  · intro hlo hhi
    constructor
    · have h1 : (1 : ℚ) ≤ v.pixels_per_day * 1.2 := by linarith
      show min (v.pixels_per_day * 1.2) 120
          = min (max (v.pixels_per_day * 1.2) 1) 120
      rw [max_eq_left h1]
    · have h2 : max (v.pixels_per_day / 1.2) 1 ≤ 120 := by
        apply max_le _ (by norm_num)
        calc v.pixels_per_day / 1.2
            ≤ v.pixels_per_day := div_le_self (by linarith) (by norm_num)
          _ ≤ 120 := hhi
      show max (v.pixels_per_day / 1.2) 1
          = min (max (v.pixels_per_day / 1.2) 1) 120
      rw [min_eq_left h2]
  · exact update_scale_matches _
  · exact update_scale_matches _

/-- C7 witness at the default viewport (pixels-per-day 18). -/
theorem zoom_spec_witness :
    (zoom_in (TimelineViewport.new 0 86400)).pixels_per_day
        = min ((TimelineViewport.new 0 86400).pixels_per_day * 1.2) 120 ∧
    (zoom_in (TimelineViewport.new 0 86400)).pixels_per_day
        = min (max ((TimelineViewport.new 0 86400).pixels_per_day * 1.2) 1)
            120 ∧
    ScaleMatchesZoom (zoom_in (TimelineViewport.new 0 86400)) := by
  have h := zoom_spec (TimelineViewport.new 0 86400)
  have hrange := h.2.2.1 (by norm_num [TimelineViewport.new])
    (by norm_num [TimelineViewport.new])
  exact ⟨h.1, hrange.1, h.2.2.2.2.2.1⟩

theorem ratTrunc_intCast (n : ℤ) : ratTrunc ((n : ℤ) : ℚ) = n := by
  unfold ratTrunc
  split_ifs with h
  · exact Int.floor_intCast n
  · rw [← Int.cast_neg, Int.floor_intCast, neg_neg]

/-- Characterisation of the base-2 logarithm by its bracketing powers. -/
theorem ilog_eq {a : ℚ} {e : ℤ} (h0 : 0 < a) (h1 : (2:ℚ) ^ e ≤ a)
    (h2 : a < (2:ℚ) ^ (e + 1)) : Int.log 2 a = e := by
  have hcast : ((2:ℕ) : ℚ) = 2 := by norm_num
  have hle : e ≤ Int.log 2 a := by
    rw [← Int.zpow_le_iff_le_log one_lt_two h0, hcast]
    exact h1
  have hlt : Int.log 2 a < e + 1 := by
    rw [← Int.lt_zpow_iff_log_lt one_lt_two h0, hcast]
    exact h2
  omega

/-- Evaluation rule for the binary32 exponent in the normal range. -/
theorem f32exp_eq {a : ℚ} {e : ℤ} (h0 : 0 < a) (h1 : (2:ℚ) ^ e ≤ a)
    (h2 : a < (2:ℚ) ^ (e + 1)) (he : -126 ≤ e) : f32exp a = e := by
  rw [f32exp, ilog_eq h0 h1 h2]
  exact max_eq_left he

/-- Evaluation rule for the rounded binary32 magnitude. -/
theorem f32val_eq {a : ℚ} {e n : ℤ} (h0 : 0 < a) (h1 : (2:ℚ) ^ e ≤ a)
    (h2 : a < (2:ℚ) ^ (e + 1)) (he : -126 ≤ e)
    (hn : rne (a * 2 ^ ((23:ℤ) - e)) = n) :
    f32val a = (n : ℚ) * 2 ^ (e - (23:ℤ)) := by
  unfold f32val
  rw [f32exp_eq h0 h1 h2 he, hn]

/-- On positive inputs below the overflow threshold, `rnd32` is the rounded
magnitude itself. -/
theorem rnd32_eq_f32val {q : ℚ} (h0 : 0 < q)
    (hov : f32val q < (2:ℚ) ^ (128:ℤ)) : rnd32 q = f32val q := by
  rw [rnd32, if_neg h0.ne', if_pos h0.le, abs_of_pos h0,
    min_eq_left hov.le, one_mul]

/-- Concrete evaluation rule for `rnd32`, given the binary exponent and the
rounded significand. -/
theorem rnd32_eval {q : ℚ} {e n : ℤ} (h1 : (2:ℚ) ^ e ≤ q)
    (h2 : q < (2:ℚ) ^ (e + 1)) (he : -126 ≤ e)
    (hn : rne (q * 2 ^ ((23:ℤ) - e)) = n)
    (hov : (n : ℚ) * 2 ^ (e - (23:ℤ)) < (2:ℚ) ^ (128:ℤ)) :
    rnd32 q = (n : ℚ) * 2 ^ (e - (23:ℤ)) := by
  have h0 : 0 < q := lt_of_lt_of_le (zpow_pos (by norm_num) e) h1
  have hfv := f32val_eq h0 h1 h2 he hn
  rw [rnd32_eq_f32val h0 (by rw [hfv]; exact hov), hfv]

/-- Rounding to the nearest integer moves a value by at most one half. -/
theorem rne_abs (x : ℚ) : |(rne x : ℚ) - x| ≤ 1/2 := by
  have h1 : ((⌊x⌋ : ℤ) : ℚ) ≤ x := Int.floor_le x
  have h2 : x < ⌊x⌋ + 1 := Int.lt_floor_add_one x
  rw [rne]
  split_ifs with ha hb hc <;> rw [abs_le] <;> push_cast <;>
    constructor <;> linarith

/-- Relative-error bound of binary32 rounding in the normal range: one unit
in the last place of a 24-bit significand. -/
theorem f32val_rel {q : ℚ} (h1 : 1/2^126 ≤ q) :
    |f32val q - q| ≤ q / 2^24 := by
  have h0 : 0 < q := lt_of_lt_of_le (by norm_num) h1
  have hcast : ((2:ℕ) : ℚ) = 2 := by norm_num
  have hle : (2:ℚ) ^ Int.log 2 q ≤ q := by
    have h := Int.zpow_log_le_self (b := 2) one_lt_two h0
    rwa [hcast] at h
  have hlt : q < (2:ℚ) ^ (Int.log 2 q + 1) := by
    have h := Int.lt_zpow_succ_log_self (b := 2) one_lt_two q
    rwa [hcast] at h
  have hel : -126 ≤ Int.log 2 q := by
    rw [← Int.zpow_le_iff_le_log one_lt_two h0, hcast]
    calc (2:ℚ) ^ (-126 : ℤ) = 1/2^126 := by norm_num
      _ ≤ q := h1
  have hmax : f32exp q = Int.log 2 q := by
    rw [f32exp, max_eq_left hel]
  set e := Int.log 2 q with hedef
  have hpow : (0:ℚ) < 2 ^ (e - (23:ℤ)) := zpow_pos (by norm_num) _
  have hcancel : q * 2 ^ ((23:ℤ) - e) * 2 ^ (e - (23:ℤ)) = q := by
    rw [mul_assoc, ← zpow_add₀ (by norm_num : (2:ℚ) ≠ 0)]
    norm_num
  have hrne := rne_abs (q * 2 ^ ((23:ℤ) - e))
  have key : |f32val q - q| ≤ 1/2 * 2 ^ (e - (23:ℤ)) := by
    unfold f32val
    rw [hmax]
    have hfac : (rne (q * 2 ^ ((23:ℤ) - e)) : ℚ) * 2 ^ (e - (23:ℤ)) - q
        = ((rne (q * 2 ^ ((23:ℤ) - e)) : ℚ) - q * 2 ^ ((23:ℤ) - e))
            * 2 ^ (e - (23:ℤ)) := by
      rw [sub_mul, hcancel]
    rw [hfac, abs_mul, abs_of_pos hpow]
    exact mul_le_mul_of_nonneg_right hrne hpow.le
  have h2e : (1:ℚ)/2 * 2 ^ (e - (23:ℤ)) ≤ q / 2^24 := by
    have hsplit : (2:ℚ) ^ (e - (23:ℤ)) = 2 ^ e * 2 ^ (-(23:ℤ)) := by
      rw [← zpow_add₀ (by norm_num : (2:ℚ) ≠ 0), sub_eq_add_neg]
    have h23 : (2:ℚ) ^ (-(23:ℤ)) = 1/2^23 := by norm_num
    rw [hsplit, h23]
    linarith [hle]
  calc |f32val q - q| ≤ 1/2 * 2 ^ (e - (23:ℤ)) := key
    _ ≤ q / 2^24 := h2e

/-- Relative-error bound carried over to `rnd32` (no overflow can occur in
the stated range). -/
theorem rnd32_rel {q : ℚ} (h1 : 1/2^126 ≤ q) (h2 : q ≤ 2^126) :
    |rnd32 q - q| ≤ q / 2^24 := by
  have h0 : 0 < q := lt_of_lt_of_le (by norm_num) h1
  have hf := f32val_rel h1
  have hov : f32val q < (2:ℚ) ^ (128:ℤ) := by
    have hub := (abs_le.mp hf).2
    have h128 : ((2:ℚ) ^ (128:ℤ)) = 2^128 := by norm_num
    rw [h128]
    linarith [h2, hub]
  rw [rnd32_eq_f32val h0 hov]
  exact hf

/-- Two-sided multiplicative enclosure of one `f32` rounding step, with wide
range margins so that every intermediate value of the pixel chain fits. -/
theorem rnd32_bounds {q : ℚ} (h1 : 1/2^100 ≤ q) (h2 : q ≤ 2^100) :
    q * (1 - 1/2^24) ≤ rnd32 q ∧ rnd32 q ≤ q * (1 + 1/2^24) := by
  have h := rnd32_rel (le_trans (by norm_num) h1) (le_trans h2 (by norm_num))
  obtain ⟨ha, hb⟩ := abs_le.mp h
  constructor <;> nlinarith [h1, ha, hb]

/-- Five `f32` roundings (cast, divide, multiply, divide back, multiply
back) followed by `i64` truncation recover an elapsed-second count of at
most `2^21` to within one second, for any divisor between 3600 and 86400 and
any zoom factor between 1/24 and 120: the zoom factor and the divisor cancel
exactly, so only the accumulated relative error of the roundings remains. -/
theorem roundtrip_chain {c p : ℚ} (s : ℤ) (hc1 : 3600 ≤ c) (hc2 : c ≤ 86400)
    (hp1 : 1/24 ≤ p) (hp2 : p ≤ 120) (hs0 : 0 ≤ s) (hs : s ≤ 2^21) :
    (ratTrunc (rnd32 (rnd32 (rnd32 (rnd32 (rnd32 ((s : ℚ)) / c) * p) / p) * c))
      - s).natAbs ≤ 1 := by
  have hc0 : (0:ℚ) < c := by linarith
  have hp0 : (0:ℚ) < p := by linarith
  rcases eq_or_lt_of_le hs0 with h0 | h0
  · rw [← h0]
    have h02 : rnd32 (0 : ℚ) = 0 := by norm_num [rnd32]
    simp only [Int.cast_zero]
    rw [h02, zero_div, h02, zero_mul, h02, zero_div, h02, zero_mul, h02]
    simp [ratTrunc]
  · have hs1 : (1:ℚ) ≤ (s : ℚ) := by exact_mod_cast h0
    have hsU : (s : ℚ) ≤ 2^21 := by exact_mod_cast hs
    obtain ⟨t1, t2⟩ := rnd32_bounds (q := ((s : ℚ)))
      (le_trans (by norm_num) hs1) (le_trans hsU (by norm_num))
    set t := rnd32 ((s : ℚ)) with htdef
    have htL : (1 - 1/2^24 : ℚ) ≤ t := by linarith [t1, hs1]
    have ht0 : (0:ℚ) ≤ t := by linarith
    have htU : t ≤ (2^21 : ℚ) * (1 + 1/2^24) := by linarith [t2, hsU]
    have ht_lo : (s:ℚ) * (1 - 1/2^24) / c ≤ t / c :=
      div_le_div_of_nonneg_right t1 hc0.le
    have ht_hi : t / c ≤ (s:ℚ) * (1 + 1/2^24) / c :=
      div_le_div_of_nonneg_right t2 hc0.le
    have hq2a : (1:ℚ)/2^100 ≤ t / c := by
      calc (1:ℚ)/2^100 ≤ (1 - 1/2^24 : ℚ) / 86400 := by norm_num
        _ ≤ t / c := div_le_div₀ ht0 htL hc0 hc2
    have hq2b : t / c ≤ 2^100 := by
      calc t / c ≤ ((2^21 : ℚ) * (1 + 1/2^24)) / 3600 :=
          div_le_div₀ (by norm_num) htU (by norm_num) hc1
        _ ≤ 2^100 := by norm_num
    obtain ⟨d1, d2⟩ := rnd32_bounds hq2a hq2b
    set d := rnd32 (t / c) with hddef
    have hd_lo : (s:ℚ) * (1 - 1/2^24)^2 / c ≤ d := by
      calc (s:ℚ) * (1 - 1/2^24)^2 / c
          = ((s:ℚ) * (1 - 1/2^24) / c) * (1 - 1/2^24) := by ring
        _ ≤ (t / c) * (1 - 1/2^24) :=
            mul_le_mul_of_nonneg_right ht_lo (by norm_num)
        _ ≤ d := d1
    have hd_hi : d ≤ (s:ℚ) * (1 + 1/2^24)^2 / c := by
      calc d ≤ (t / c) * (1 + 1/2^24) := d2
        _ ≤ ((s:ℚ) * (1 + 1/2^24) / c) * (1 + 1/2^24) :=
            mul_le_mul_of_nonneg_right ht_hi (by norm_num)
        _ = (s:ℚ) * (1 + 1/2^24)^2 / c := by ring
    have hdL : (1 - 1/2^24 : ℚ)^2 / 86400 ≤ d := by
      have hnum : (1 - 1/2^24 : ℚ)^2 ≤ (s:ℚ) * (1 - 1/2^24)^2 := by
        linarith [hs1]
      have hpos : (0:ℚ) ≤ (s:ℚ) * (1 - 1/2^24)^2 := by linarith [hs1]
      calc (1 - 1/2^24 : ℚ)^2 / 86400
          ≤ (s:ℚ) * (1 - 1/2^24)^2 / c := div_le_div₀ hpos hnum hc0 hc2
        _ ≤ d := hd_lo
    have hd0 : (0:ℚ) ≤ d := le_trans (by norm_num) hdL
    have hdU : d ≤ (2^21 : ℚ) * (1 + 1/2^24)^2 / 3600 := by
      have hnum : (s:ℚ) * (1 + 1/2^24)^2 ≤ (2^21 : ℚ) * (1 + 1/2^24)^2 := by
        linarith [hsU]
      calc d ≤ (s:ℚ) * (1 + 1/2^24)^2 / c := hd_hi
        _ ≤ (2^21 : ℚ) * (1 + 1/2^24)^2 / 3600 :=
            div_le_div₀ (by norm_num) hnum (by norm_num) hc1
    have hq3a : (1:ℚ)/2^100 ≤ d * p := by
      calc (1:ℚ)/2^100
          ≤ ((1 - 1/2^24 : ℚ)^2 / 86400) * (1/24) := by norm_num
        _ ≤ d * p := mul_le_mul hdL hp1 (by norm_num) hd0
    have hq3b : d * p ≤ 2^100 := by
      calc d * p ≤ ((2^21 : ℚ) * (1 + 1/2^24)^2 / 3600) * 120 :=
          mul_le_mul hdU hp2 hp0.le (by norm_num)
        _ ≤ 2^100 := by norm_num
    obtain ⟨x1, x2⟩ := rnd32_bounds hq3a hq3b
    set x := rnd32 (d * p) with hxdef
    have hx_lo : (s:ℚ) * (1 - 1/2^24)^3 * p / c ≤ x := by
      calc (s:ℚ) * (1 - 1/2^24)^3 * p / c
          = ((s:ℚ) * (1 - 1/2^24)^2 / c) * p * (1 - 1/2^24) := by ring
        _ ≤ (d * p) * (1 - 1/2^24) := by
            apply mul_le_mul_of_nonneg_right _ (by norm_num)
            exact mul_le_mul_of_nonneg_right hd_lo hp0.le
        _ ≤ x := x1
    have hx_hi : x ≤ (s:ℚ) * (1 + 1/2^24)^3 * p / c := by
      calc x ≤ (d * p) * (1 + 1/2^24) := x2
        _ ≤ ((s:ℚ) * (1 + 1/2^24)^2 / c) * p * (1 + 1/2^24) := by
            apply mul_le_mul_of_nonneg_right _ (by norm_num)
            exact mul_le_mul_of_nonneg_right hd_hi hp0.le
        _ = (s:ℚ) * (1 + 1/2^24)^3 * p / c := by ring
    have hxp_lo : (s:ℚ) * (1 - 1/2^24)^3 / c ≤ x / p := by
      rw [le_div_iff₀ hp0]
      calc (s:ℚ) * (1 - 1/2^24)^3 / c * p
          = (s:ℚ) * (1 - 1/2^24)^3 * p / c := by ring
        _ ≤ x := hx_lo
    have hxp_hi : x / p ≤ (s:ℚ) * (1 + 1/2^24)^3 / c := by
      rw [div_le_iff₀ hp0]
      calc x ≤ (s:ℚ) * (1 + 1/2^24)^3 * p / c := hx_hi
        _ = (s:ℚ) * (1 + 1/2^24)^3 / c * p := by ring
    have hq4a : (1:ℚ)/2^100 ≤ x / p := by
      have hnum : (1 - 1/2^24 : ℚ)^3 ≤ (s:ℚ) * (1 - 1/2^24)^3 := by
        linarith [hs1]
      have hpos : (0:ℚ) ≤ (s:ℚ) * (1 - 1/2^24)^3 := by linarith [hs1]
      calc (1:ℚ)/2^100 ≤ (1 - 1/2^24 : ℚ)^3 / 86400 := by norm_num
        _ ≤ (s:ℚ) * (1 - 1/2^24)^3 / c := div_le_div₀ hpos hnum hc0 hc2
        _ ≤ x / p := hxp_lo
    have hq4b : x / p ≤ 2^100 := by
      have hnum : (s:ℚ) * (1 + 1/2^24)^3 ≤ (2^21 : ℚ) * (1 + 1/2^24)^3 := by
        linarith [hsU]
      calc x / p ≤ (s:ℚ) * (1 + 1/2^24)^3 / c := hxp_hi
        _ ≤ (2^21 : ℚ) * (1 + 1/2^24)^3 / 3600 :=
            div_le_div₀ (by norm_num) hnum (by norm_num) hc1
        _ ≤ 2^100 := by norm_num
    obtain ⟨w1, w2⟩ := rnd32_bounds hq4a hq4b
    set w := rnd32 (x / p) with hwdef
    have hw_lo : (s:ℚ) * (1 - 1/2^24)^4 / c ≤ w := by
      calc (s:ℚ) * (1 - 1/2^24)^4 / c
          = ((s:ℚ) * (1 - 1/2^24)^3 / c) * (1 - 1/2^24) := by ring
        _ ≤ (x / p) * (1 - 1/2^24) :=
            mul_le_mul_of_nonneg_right hxp_lo (by norm_num)
        _ ≤ w := w1
    have hw_hi : w ≤ (s:ℚ) * (1 + 1/2^24)^4 / c := by
      calc w ≤ (x / p) * (1 + 1/2^24) := w2
        _ ≤ ((s:ℚ) * (1 + 1/2^24)^3 / c) * (1 + 1/2^24) :=
            mul_le_mul_of_nonneg_right hxp_hi (by norm_num)
        _ = (s:ℚ) * (1 + 1/2^24)^4 / c := by ring
    have hwc_lo : (s:ℚ) * (1 - 1/2^24)^4 ≤ w * c := by
      have hcc : (s:ℚ) * (1 - 1/2^24)^4
          = ((s:ℚ) * (1 - 1/2^24)^4 / c) * c := by
        field_simp
        ring
      rw [hcc]
      exact mul_le_mul_of_nonneg_right hw_lo hc0.le
    have hwc_hi : w * c ≤ (s:ℚ) * (1 + 1/2^24)^4 := by
      have hcc : ((s:ℚ) * (1 + 1/2^24)^4 / c) * c
          = (s:ℚ) * (1 + 1/2^24)^4 := by
        field_simp
        ring
      calc w * c ≤ ((s:ℚ) * (1 + 1/2^24)^4 / c) * c :=
          mul_le_mul_of_nonneg_right hw_hi hc0.le
        _ = (s:ℚ) * (1 + 1/2^24)^4 := hcc
    have hq5a : (1:ℚ)/2^100 ≤ w * c := by
      calc (1:ℚ)/2^100 ≤ (1 - 1/2^24 : ℚ)^4 := by norm_num
        _ ≤ (s:ℚ) * (1 - 1/2^24)^4 := by linarith [hs1]
        _ ≤ w * c := hwc_lo
    have hq5b : w * c ≤ 2^100 := by
      calc w * c ≤ (s:ℚ) * (1 + 1/2^24)^4 := hwc_hi
        _ ≤ (2^21 : ℚ) * (1 + 1/2^24)^4 := by linarith [hsU]
        _ ≤ 2^100 := by norm_num
    obtain ⟨y1, y2⟩ := rnd32_bounds hq5a hq5b
    set y := rnd32 (w * c) with hydef
    have hy_lo : (s:ℚ) * (1 - 1/2^24)^5 ≤ y := by
      calc (s:ℚ) * (1 - 1/2^24)^5
          = ((s:ℚ) * (1 - 1/2^24)^4) * (1 - 1/2^24) := by ring
        _ ≤ (w * c) * (1 - 1/2^24) :=
            mul_le_mul_of_nonneg_right hwc_lo (by norm_num)
        _ ≤ y := y1
    have hy_hi : y ≤ (s:ℚ) * (1 + 1/2^24)^5 := by
      calc y ≤ (w * c) * (1 + 1/2^24) := y2
        _ ≤ ((s:ℚ) * (1 + 1/2^24)^4) * (1 + 1/2^24) :=
            mul_le_mul_of_nonneg_right hwc_hi (by norm_num)
        _ = (s:ℚ) * (1 + 1/2^24)^5 := by ring
    have hk5a : ((2:ℚ)^21) * (1 - (1 - 1/2^24)^5) < 1 := by norm_num
    have hk5b : ((2:ℚ)^21) * ((1 + 1/2^24)^5 - 1) < 1 := by norm_num
    have hclose1 : (s:ℚ) - 1 < y := by linarith [hy_lo, hsU, hk5a, hs1]
    have hclose2 : y < (s:ℚ) + 1 := by linarith [hy_hi, hsU, hk5b, hs1]
    have hy0 : (0:ℚ) ≤ y := by linarith [hy_lo, hs1]
    have htr : ratTrunc y = ⌊y⌋ := by rw [ratTrunc, if_pos hy0]
    have hfl1 : s - 1 ≤ ⌊y⌋ := by
      apply Int.le_floor.mpr
      push_cast
      linarith
    have hfl2 : ⌊y⌋ ≤ s := by
      have hss : ⌊y⌋ < s + 1 := Int.floor_lt.mpr (by push_cast; linarith)
      omega
    rw [htr]
    omega

/-- C8 counterexample: at the Days scale with the default 18 pixels per day,
the datetime 2^25 + 2 = 33554434 seconds after the viewport start already
round-trips through the `f32` pixel conversion to 33554432, two full seconds
away, so the claimed universal one-second bound fails. -/
theorem pixel_roundtrip_counterexample :
    ¬ ((x_to_datetime ⟨0, 86400, TimelineScale.Days, 18, 3/4⟩
        (datetime_to_x ⟨0, 86400, TimelineScale.Days, 18, 3/4⟩ 33554434)
          - 33554434).natAbs ≤ 1) := by
  have g1 : rnd32 (33554434 : ℚ) = 33554432 := by
    rw [@rnd32_eval (33554434 : ℚ) 25 8388608 (by norm_num) (by norm_num)
      (by norm_num) (by norm_num [rne]) (by norm_num)]
    norm_num
  have g2 : rnd32 ((33554432 : ℚ) / 86400) = 12725829/32768 := by
    rw [@rnd32_eval ((33554432 : ℚ) / 86400) 8 12725829 (by norm_num)
      (by norm_num) (by norm_num) (by norm_num [rne]) (by norm_num)]
    norm_num
  have g3 : rnd32 ((12725829/32768 : ℚ) * 18) = 7158279/1024 := by
    rw [@rnd32_eval ((12725829/32768 : ℚ) * 18) 12 14316558 (by norm_num)
      (by norm_num) (by norm_num) (by norm_num [rne]) (by norm_num)]
    norm_num
  have g4 : rnd32 ((7158279/1024 : ℚ) / 18) = 12725829/32768 := by
    rw [@rnd32_eval ((7158279/1024 : ℚ) / 18) 8 12725829 (by norm_num)
      (by norm_num) (by norm_num) (by norm_num [rne]) (by norm_num)]
    norm_num
  have g5 : rnd32 ((12725829/32768 : ℚ) * 86400) = 33554432 := by
    rw [@rnd32_eval ((12725829/32768 : ℚ) * 86400) 24 16777216 (by norm_num)
      (by norm_num) (by norm_num) (by norm_num [rne]) (by norm_num)]
    norm_num
  have gt : ratTrunc (33554432 : ℚ) = 33554432 := by
    rw [ratTrunc, if_pos (by norm_num)]
    norm_num
  simp only [datetime_to_x, x_to_datetime]
  norm_num only [Int.cast_ofNat, Int.cast_sub, Int.cast_zero]
  rw [g1, g2, g3, g4, g5, gt]
  omega

/-- C8 (amended): for every viewport whose zoom factors lie in the
configured ranges (pixels-per-day in [1, 120], pixels-per-hour in
[1/24, 5]) and every datetime between the viewport start and 2^21 seconds
(about 24 days) after it, `x_to_datetime (datetime_to_x dt)` recovers `dt`
within one second for the active scale, every `f32` step rounding to nearest
with ties to even; for larger elapsed times the accumulated rounding can
exceed one second. -/
theorem pixel_roundtrip_spec (v : TimelineViewport) (dt : Int)
    (hppd1 : 1 ≤ v.pixels_per_day) (hppd2 : v.pixels_per_day ≤ 120)
    (hpph1 : 1/24 ≤ v.pixels_per_hour) (hpph2 : v.pixels_per_hour ≤ 5)
    (hdt : v.start ≤ dt) (hspan : dt - v.start ≤ 2^21) :
    (x_to_datetime v (datetime_to_x v dt) - dt).natAbs ≤ 1 := by
  obtain ⟨vs, ve, sc, ppd, pph⟩ := v
  simp only at hppd1 hppd2 hpph1 hpph2 hdt hspan
  have hs0 : 0 ≤ dt - vs := by omega
  cases sc
  case Hours =>
    have h := roundtrip_chain (c := 3600) (p := pph) (dt - vs) (by norm_num)
      (by norm_num) hpph1 (by linarith) hs0 hspan
    simp only [datetime_to_x, x_to_datetime]
    omega
  all_goals {
    have h := roundtrip_chain (c := 86400) (p := ppd) (dt - vs) (by norm_num)
      (by norm_num) (by linarith) hppd2 hs0 hspan
    simp only [datetime_to_x, x_to_datetime]
    omega }

/-- C8 witness at a concrete Days-scale viewport and datetime. -/
theorem pixel_roundtrip_spec_witness :
    (x_to_datetime ⟨0, 86400, TimelineScale.Days, 18, 3/4⟩
        (datetime_to_x ⟨0, 86400, TimelineScale.Days, 18, 3/4⟩ 1000)
      - 1000).natAbs ≤ 1 :=
  pixel_roundtrip_spec ⟨0, 86400, TimelineScale.Days, 18, 3/4⟩ 1000
    (by norm_num) (by norm_num) (by norm_num) (by norm_num) (by norm_num)
    (by norm_num)

/-! ## Datetime field decoding (`src/model/task.rs`, `datetime_serde`)

The deserializer's control flow (try `%Y-%m-%dT%H:%M:%S`, then
`%Y-%m-%d %H:%M:%S`, then date-only `%Y-%m-%d`, else a custom error naming
the offending string) lives in `src/model/task.rs`.  The `chrono` parse
functions themselves are an external library; they are modelled from the
spec: each format accepts exactly the fixed-width zero-padded text with
in-range calendar/time components, consuming the whole string. -/

/-- Datetime record produced by decoding (`chrono::NaiveDateTime`
components). -/
structure DateTimeRec where
  year : Nat
  month : Nat
  day : Nat
  hour : Nat
  minute : Nat
  second : Nat
deriving DecidableEq

/-- The numeric value of a decimal digit character, if any. -/
def digitVal? (c : Char) : Option Nat :=
  if c = '0' then some 0
  else if c = '1' then some 1
  else if c = '2' then some 2
  else if c = '3' then some 3
  else if c = '4' then some 4
  else if c = '5' then some 5
  else if c = '6' then some 6
  else if c = '7' then some 7
  else if c = '8' then some 8
  else if c = '9' then some 9
  else none

/-- The decimal digit character for a value below ten. -/
def digitChar (n : Nat) : Char :=
  if n = 0 then '0'
  else if n = 1 then '1'
  else if n = 2 then '2'
  else if n = 3 then '3'
  else if n = 4 then '4'
  else if n = 5 then '5'
  else if n = 6 then '6'
  else if n = 7 then '7'
  else if n = 8 then '8'
  else if n = 9 then '9'
  else '*'

/-- Gregorian leap year. -/
def isLeap (y : Nat) : Bool :=
  (y % 4 == 0 && y % 100 != 0) || y % 400 == 0

/-- Days in a month of the proleptic Gregorian calendar. -/
def daysInMonth (y m : Nat) : Nat :=
  if m = 2 then (if isLeap y then 29 else 28)
  else if m = 4 ∨ m = 6 ∨ m = 9 ∨ m = 11 then 30
  else 31

/-- A valid calendar date with a four-digit year. -/
def validDate (y mo d : Nat) : Prop :=
  1 ≤ mo ∧ mo ≤ 12 ∧ 1 ≤ d ∧ d ≤ daysInMonth y mo

/-- A valid time of day. -/
def validTime (h mi s : Nat) : Prop := h ≤ 23 ∧ mi ≤ 59 ∧ s ≤ 59

instance (y mo d : Nat) : Decidable (validDate y mo d) := by
  unfold validDate
  infer_instance

instance (h mi s : Nat) : Decidable (validTime h mi s) := by
  unfold validTime
  infer_instance

/-- Consume one decimal digit. -/
def parseDigit (l : List Char) : Option (Nat × List Char) :=
  match l with
  | [] => none
  | c :: rest =>
      match digitVal? c with
      | some v => some (v, rest)
      | none => none

/-- Consume one expected literal character. -/
def parseLit (c : Char) (l : List Char) : Option (List Char) :=
  match l with
  | [] => none
  | x :: rest => if x = c then some rest else none

/-- Consume a two-digit zero-padded number. -/
def parse2 (l : List Char) : Option (Nat × List Char) :=
  (parseDigit l).bind fun al =>
    (parseDigit al.2).bind fun bl => some (al.1 * 10 + bl.1, bl.2)

/-- Consume a four-digit zero-padded number. -/
def parse4 (l : List Char) : Option (Nat × List Char) :=
  (parse2 l).bind fun al =>
    (parse2 al.2).bind fun bl => some (al.1 * 100 + bl.1, bl.2)

/-- Modelled from the spec: `chrono::NaiveDateTime::parse_from_str` with the
format `%Y-%m-%d<sep>%H:%M:%S` (`sep` is `T` or a space) accepts exactly the
fixed-width zero-padded datetime text with valid date and time components,
consuming the entire string. -/
def parse_datetime (sep : Char) (l : List Char) : Option DateTimeRec :=
  (parse4 l).bind fun yl =>
  (parseLit '-' yl.2).bind fun l1 =>
  (parse2 l1).bind fun mol =>
  (parseLit '-' mol.2).bind fun l2 =>
  (parse2 l2).bind fun dl =>
  (parseLit sep dl.2).bind fun l3 =>
  (parse2 l3).bind fun hl =>
  (parseLit ':' hl.2).bind fun l4 =>
  (parse2 l4).bind fun mil =>
  (parseLit ':' mil.2).bind fun l5 =>
  (parse2 l5).bind fun sl =>
  match sl.2 with
  | [] =>
      if validDate yl.1 mol.1 dl.1 ∧ validTime hl.1 mil.1 sl.1
      then some ⟨yl.1, mol.1, dl.1, hl.1, mil.1, sl.1⟩
      else none
  | _ => none

/-- Modelled from the spec: `chrono::NaiveDate::parse_from_str` with format
`%Y-%m-%d` accepts exactly the fixed-width zero-padded date text with valid
components, consuming the entire string. -/
def parse_date (l : List Char) : Option (Nat × Nat × Nat) :=
  (parse4 l).bind fun yl =>
  (parseLit '-' yl.2).bind fun l1 =>
  (parse2 l1).bind fun mol =>
  (parseLit '-' mol.2).bind fun l2 =>
  (parse2 l2).bind fun dl =>
  match dl.2 with
  | [] => if validDate yl.1 mol.1 dl.1 then some (yl.1, mol.1, dl.1) else none
  | _ => none

/-- Embedding of `datetime_serde::deserialize` from `src/model/task.rs`: try the ISO
datetime format, then the space-separated datetime format, then the legacy
date-only format (defaulting the time to midnight), and otherwise fail with
an error naming the offending string. -/
def datetime_deserialize (s : String) : Except String DateTimeRec :=
  match parse_datetime 'T' s.data with
  | some dt => Except.ok dt
  | none =>
      match parse_datetime ' ' s.data with
      | some dt => Except.ok dt
      | none =>
          match parse_date s.data with
          | some (y, mo, d) => Except.ok ⟨y, mo, d, 0, 0, 0⟩
          | none =>
              Except.error ("Failed to parse datetime or date from: " ++ s)

/-! ### The textual forms, as the spec writes them -/

/-- The two-character zero-padded decimal rendering of `n ≤ 99`. -/
def pad2 (n : Nat) : List Char := [digitChar (n / 10), digitChar (n % 10)]

/-- The four-character zero-padded decimal rendering of `n ≤ 9999`. -/
def pad4 (n : Nat) : List Char :=
  [digitChar (n / 1000), digitChar (n / 100 % 10),
   digitChar (n / 10 % 10), digitChar (n % 10)]

/-- The text `YYYY-MM-DD`. -/
def dateText (y mo d : Nat) : List Char :=
  pad4 y ++ ('-' :: (pad2 mo ++ ('-' :: pad2 d)))

/-- The text `YYYY-MM-DD<sep>HH:MM:SS`. -/
def datetimeText (sep : Char) (r : DateTimeRec) : List Char :=
  pad4 r.year ++ ('-' :: (pad2 r.month ++ ('-' :: (pad2 r.day ++
    (sep :: (pad2 r.hour ++ (':' :: (pad2 r.minute ++
      (':' :: pad2 r.second)))))))))

/-- Statement that `s` is exactly the text `YYYY-MM-DD<sep>HH:MM:SS` for the components of
`r`, which form a valid datetime. -/
def DateTimeForm (sep : Char) (s : String) (r : DateTimeRec) : Prop :=
  r.year ≤ 9999 ∧ validDate r.year r.month r.day ∧
  validTime r.hour r.minute r.second ∧
  s.data = datetimeText sep r

/-- Statement that `s` is one of the two datetime forms with separator `sep`. -/
def IsDateTimeForm (sep : Char) (s : String) : Prop := ∃ r, DateTimeForm sep s r

/-- Statement that `s` is exactly the legacy date-only text `YYYY-MM-DD` for `y-mo-d`, a
valid date. -/
def DateOnlyForm (s : String) (y mo d : Nat) : Prop :=
  y ≤ 9999 ∧ validDate y mo d ∧ s.data = dateText y mo d

/-- Statement that `s` is the date-only form. -/
def IsDateOnlyForm (s : String) : Prop := ∃ y mo d, DateOnlyForm s y mo d

/-! ### Primitive parser lemmas -/

theorem digitVal?_digitChar : ∀ v, v < 10 → digitVal? (digitChar v) = some v := by
  decide

theorem digitVal?_sound : ∀ (c : Char) (v : Nat), digitVal? c = some v →
    v < 10 ∧ digitChar v = c := by
  intro c v h
  unfold digitVal? at h
  split_ifs at h <;> cases h <;> subst c <;> exact ⟨by decide, by decide⟩

theorem parseLit_complete (c : Char) (l' : List Char) :
    parseLit c (c :: l') = some l' := by
  simp [parseLit]

theorem parseLit_eq_some {c : Char} {l l' : List Char} :
    parseLit c l = some l' ↔ l = c :: l' := by
  constructor
  · intro h
    cases l with
    | nil => simp [parseLit] at h
    | cons x rest =>
        simp only [parseLit] at h
        split_ifs at h with hx
        cases h
        rw [hx]
  · rintro rfl
    exact parseLit_complete c l'

theorem parseDigit_complete {v : Nat} (hv : v < 10) (l' : List Char) :
    parseDigit (digitChar v :: l') = some (v, l') := by
  simp only [parseDigit]
  rw [digitVal?_digitChar v hv]

theorem parseDigit_eq_some {l : List Char} {v : Nat} {l' : List Char} :
    parseDigit l = some (v, l') ↔ v < 10 ∧ l = digitChar v :: l' := by
  constructor
  · intro h
    cases l with
    | nil => simp [parseDigit] at h
    | cons c rest =>
        simp only [parseDigit] at h
        cases hv : digitVal? c with
        | none => rw [hv] at h; cases h
        | some v2 =>
            rw [hv] at h
            simp only [Option.some.injEq, Prod.mk.injEq] at h
            obtain ⟨rfl, rfl⟩ := h
            obtain ⟨hlt, hc⟩ := digitVal?_sound c v2 hv
            exact ⟨hlt, by rw [hc]⟩
  · rintro ⟨hv, rfl⟩
    exact parseDigit_complete hv l'

theorem parse2_complete {v : Nat} (hv : v ≤ 99) (l' : List Char) :
    parse2 (pad2 v ++ l') = some (v, l') := by
  have h1 : v / 10 < 10 := by omega
  have h2 : v % 10 < 10 := by omega
  have hshape : pad2 v ++ l' = digitChar (v / 10) :: (digitChar (v % 10) :: l') := rfl
  rw [hshape]
  simp only [parse2, parseDigit_complete h1, Option.some_bind,
    parseDigit_complete h2]
  have : v / 10 * 10 + v % 10 = v := by omega
  rw [this]

theorem parse2_eq_some {l : List Char} {v : Nat} {l' : List Char} :
    parse2 l = some (v, l') ↔ v ≤ 99 ∧ l = pad2 v ++ l' := by
  constructor
  · intro h
    simp only [parse2, Option.bind_eq_some] at h
    obtain ⟨⟨a, l₁⟩, ha, ⟨b, l₂⟩, hb, hres⟩ := h
    simp only [Option.some.injEq, Prod.mk.injEq] at hres
    obtain ⟨rfl, rfl⟩ := hres
    obtain ⟨ha1, rfl⟩ := parseDigit_eq_some.1 ha
    obtain ⟨hb1, rfl⟩ := parseDigit_eq_some.1 hb
    constructor
    · omega
    · unfold pad2
      have e1 : (a * 10 + b) / 10 = a := by omega
      have e2 : (a * 10 + b) % 10 = b := by omega
      rw [e1, e2]
      rfl
  · rintro ⟨hv, rfl⟩
    exact parse2_complete hv l'

theorem pad4_eq (n : Nat) : pad4 n = pad2 (n / 100) ++ pad2 (n % 100) := by
  unfold pad4 pad2
  have h1 : n / 100 / 10 = n / 1000 := by omega
  have h3 : n % 100 / 10 = n / 10 % 10 := by omega
  have h4 : n % 100 % 10 = n % 10 := by omega
  rw [h1, h3, h4]
  rfl

theorem parse4_complete {v : Nat} (hv : v ≤ 9999) (l' : List Char) :
    parse4 (pad4 v ++ l') = some (v, l') := by
  rw [pad4_eq, List.append_assoc]
  simp only [parse4, parse2_complete (show v / 100 ≤ 99 by omega),
    Option.some_bind, parse2_complete (show v % 100 ≤ 99 by omega)]
  have : v / 100 * 100 + v % 100 = v := by omega
  rw [this]

theorem parse4_eq_some {l : List Char} {v : Nat} {l' : List Char} :
    parse4 l = some (v, l') ↔ v ≤ 9999 ∧ l = pad4 v ++ l' := by
  constructor
  · intro h
    simp only [parse4, Option.bind_eq_some] at h
    obtain ⟨⟨a, l₁⟩, ha, ⟨b, l₂⟩, hb, hres⟩ := h
    simp only [Option.some.injEq, Prod.mk.injEq] at hres
    obtain ⟨rfl, rfl⟩ := hres
    obtain ⟨ha1, rfl⟩ := parse2_eq_some.1 ha
    obtain ⟨hb1, rfl⟩ := parse2_eq_some.1 hb
    constructor
    · omega
    · rw [pad4_eq]
      have e1 : (a * 100 + b) / 100 = a := by omega
      have e2 : (a * 100 + b) % 100 = b := by omega
      rw [e1, e2, List.append_assoc]
  · rintro ⟨hv, rfl⟩
    exact parse4_complete hv l'

theorem daysInMonth_le (y m : Nat) : daysInMonth y m ≤ 31 := by
  unfold daysInMonth
  split_ifs <;> omega

theorem parse2_complete_nil {v : Nat} (hv : v ≤ 99) :
    parse2 (pad2 v) = some (v, []) := by
  have h := parse2_complete hv []
  rwa [List.append_nil] at h

theorem parse_datetime_complete {sep : Char} {r : DateTimeRec}
    (hy : r.year ≤ 9999) (hvd : validDate r.year r.month r.day)
    (hvt : validTime r.hour r.minute r.second) :
    parse_datetime sep (datetimeText sep r) = some r := by
  obtain ⟨hm1, hm2, hd1, hd2⟩ := hvd
  obtain ⟨hh, hmi, hs⟩ := hvt
  have hdm := daysInMonth_le r.year r.month
  simp only [datetimeText, parse_datetime, parse4_complete hy,
    Option.some_bind, parseLit_complete,
    parse2_complete (show r.month ≤ 99 by omega),
    parse2_complete (show r.day ≤ 99 by omega),
    parse2_complete (show r.hour ≤ 99 by omega),
    parse2_complete (show r.minute ≤ 99 by omega),
    parse2_complete_nil (show r.second ≤ 99 by omega)]
  rw [if_pos ⟨⟨hm1, hm2, hd1, hd2⟩, hh, hmi, hs⟩]

theorem parse_datetime_eq_some {sep : Char} {l : List Char}
    {r : DateTimeRec} :
    parse_datetime sep l = some r ↔
      r.year ≤ 9999 ∧ validDate r.year r.month r.day ∧
      validTime r.hour r.minute r.second ∧
      l = datetimeText sep r := by
  constructor
  · intro h
    simp only [parse_datetime, Option.bind_eq_some] at h
    obtain ⟨⟨y, ly⟩, hy, l1, hl1, ⟨mo, lmo⟩, hmo, l2, hl2, ⟨d, ld⟩, hd,
      l3, hl3, ⟨ho, lh⟩, hho, l4, hl4, ⟨mi, lmi⟩, hmi, l5, hl5,
      ⟨sec, ls⟩, hsec, hfin⟩ := h
    cases ls with
    | cons a as => simp at hfin
    | nil =>
        dsimp only at hfin
        split_ifs at hfin with hval
        cases hfin
        obtain ⟨hy1, hy2⟩ := parse4_eq_some.1 hy
        have hl1' := parseLit_eq_some.1 hl1
        obtain ⟨hmo1, hmo2⟩ := parse2_eq_some.1 hmo
        have hl2' := parseLit_eq_some.1 hl2
        obtain ⟨hd1, hd2⟩ := parse2_eq_some.1 hd
        have hl3' := parseLit_eq_some.1 hl3
        obtain ⟨hho1, hho2⟩ := parse2_eq_some.1 hho
        have hl4' := parseLit_eq_some.1 hl4
        obtain ⟨hmi1, hmi2⟩ := parse2_eq_some.1 hmi
        have hl5' := parseLit_eq_some.1 hl5
        obtain ⟨hsec1, hsec2⟩ := parse2_eq_some.1 hsec
        rw [List.append_nil] at hsec2
        refine ⟨hy1, hval.1, hval.2, ?_⟩
        dsimp only at hl1' hl2' hl3' hl4' hl5'
        simp only [datetimeText]
        rw [hy2, hl1', hmo2, hl2', hd2, hl3', hho2, hl4', hmi2, hl5', hsec2]
  · rintro ⟨hy, hvd, hvt, rfl⟩
    exact parse_datetime_complete hy hvd hvt

theorem parse_date_complete {y mo d : Nat} (hy : y ≤ 9999)
    (hvd : validDate y mo d) :
    parse_date (dateText y mo d) = some (y, mo, d) := by
  obtain ⟨hm1, hm2, hd1, hd2⟩ := hvd
  have hdm := daysInMonth_le y mo
  simp only [dateText, parse_date, parse4_complete hy, Option.some_bind,
    parseLit_complete,
    parse2_complete (show mo ≤ 99 by omega),
    parse2_complete_nil (show d ≤ 99 by omega)]
  rw [if_pos ⟨hm1, hm2, hd1, hd2⟩]

theorem parse_date_eq_some {l : List Char} {y mo d : Nat} :
    parse_date l = some (y, mo, d) ↔
      y ≤ 9999 ∧ validDate y mo d ∧ l = dateText y mo d := by
  constructor
  · intro h
    simp only [parse_date, Option.bind_eq_some] at h
    obtain ⟨⟨y2, ly⟩, hy, l1, hl1, ⟨mo2, lmo⟩, hmo, l2, hl2, ⟨d2, ld⟩, hd,
      hfin⟩ := h
    cases ld with
    | cons a as => simp at hfin
    | nil =>
        dsimp only at hfin
        split_ifs at hfin with hval
        cases hfin
        obtain ⟨hy1, hy2'⟩ := parse4_eq_some.1 hy
        have hl1' := parseLit_eq_some.1 hl1
        obtain ⟨hmo1, hmo2'⟩ := parse2_eq_some.1 hmo
        have hl2' := parseLit_eq_some.1 hl2
        obtain ⟨hd1, hd2'⟩ := parse2_eq_some.1 hd
        rw [List.append_nil] at hd2'
        refine ⟨hy1, hval, ?_⟩
        dsimp only at hl1' hl2'
        simp only [dateText]
        rw [hy2', hl1', hmo2', hl2', hd2']
  · rintro ⟨hy, hvd, rfl⟩
    exact parse_date_complete hy hvd

theorem form_length_dt {sep : Char} {s : String} {r : DateTimeRec}
    (h : DateTimeForm sep s r) : s.data.length = 19 := by
  obtain ⟨-, -, -, hs⟩ := h
  rw [hs]
  simp [datetimeText, pad4, pad2]

theorem form_length_date {s : String} {y mo d : Nat}
    (h : DateOnlyForm s y mo d) : s.data.length = 10 := by
  obtain ⟨-, -, hs⟩ := h
  rw [hs]
  simp [dateText, pad4, pad2]

/-- C5: decoding a datetime field accepts exactly the three textual forms
`YYYY-MM-DDTHH:MM:SS`, `YYYY-MM-DD HH:MM:SS` and date-only `YYYY-MM-DD`
(which decodes to midnight of that date), and on every other input string it
fails with an error naming the offending string, with no partial recovery. -/
theorem datetime_decode_spec (s : String) :
    ((∃ r, datetime_deserialize s = Except.ok r) ↔
      (IsDateTimeForm 'T' s ∨ IsDateTimeForm ' ' s ∨ IsDateOnlyForm s)) ∧
    (∀ y mo d, DateOnlyForm s y mo d →
      datetime_deserialize s = Except.ok ⟨y, mo, d, 0, 0, 0⟩) ∧
    (¬ (IsDateTimeForm 'T' s ∨ IsDateTimeForm ' ' s ∨ IsDateOnlyForm s) →
      datetime_deserialize s
        = Except.error ("Failed to parse datetime or date from: " ++ s)) := by
  cases hT : parse_datetime 'T' s.data with
  | some r =>
      have hform : DateTimeForm 'T' s r := parse_datetime_eq_some.1 hT
      have hdec : datetime_deserialize s = Except.ok r := by
        unfold datetime_deserialize
        rw [hT]
      refine ⟨⟨fun _ => Or.inl ⟨r, hform⟩, fun _ => ⟨r, hdec⟩⟩, ?_, ?_⟩
      · intro y mo d hdo
        exfalso
        have h19 := form_length_dt hform
        have h10 := form_length_date hdo
        omega
      · intro hnot
        exact absurd (Or.inl ⟨r, hform⟩) hnot
  | none =>
      cases hSp : parse_datetime ' ' s.data with
      | some r =>
          have hform : DateTimeForm ' ' s r := parse_datetime_eq_some.1 hSp
          have hdec : datetime_deserialize s = Except.ok r := by
            unfold datetime_deserialize
            rw [hT, hSp]
          refine ⟨⟨fun _ => Or.inr (Or.inl ⟨r, hform⟩), fun _ => ⟨r, hdec⟩⟩,
            ?_, ?_⟩
          · intro y mo d hdo
            exfalso
            have h19 := form_length_dt hform
            have h10 := form_length_date hdo
            omega
          · intro hnot
            exact absurd (Or.inr (Or.inl ⟨r, hform⟩)) hnot
      | none =>
          cases hD : parse_date s.data with
          | some t =>
              obtain ⟨y, mo, d⟩ := t
              have hform : DateOnlyForm s y mo d := parse_date_eq_some.1 hD
              have hdec : datetime_deserialize s
                  = Except.ok ⟨y, mo, d, 0, 0, 0⟩ := by
                unfold datetime_deserialize
                rw [hT, hSp, hD]
              refine ⟨⟨fun _ => Or.inr (Or.inr ⟨y, mo, d, hform⟩),
                fun _ => ⟨⟨y, mo, d, 0, 0, 0⟩, hdec⟩⟩, ?_, ?_⟩
              · intro y2 mo2 d2 hdo2
                have h2 : parse_date s.data = some (y2, mo2, d2) := by
                  obtain ⟨ha, hb, hs⟩ := hdo2
                  rw [hs]
                  exact parse_date_complete ha hb
                rw [hD] at h2
                simp only [Option.some.injEq, Prod.mk.injEq] at h2
                obtain ⟨rfl, rfl, rfl⟩ := h2
                exact hdec
              · intro hnot
                exact absurd (Or.inr (Or.inr ⟨y, mo, d, hform⟩)) hnot
          | none =>
              have hdec : datetime_deserialize s
                  = Except.error
                      ("Failed to parse datetime or date from: " ++ s) := by
                unfold datetime_deserialize
                rw [hT, hSp, hD]
              refine ⟨⟨?_, ?_⟩, ?_, fun _ => hdec⟩
              · rintro ⟨r, hr⟩
                rw [hdec] at hr
                cases hr
              · rintro (⟨r, hf⟩ | ⟨r, hf⟩ | ⟨y, mo, d, hf⟩)
                · exfalso
                  obtain ⟨h1, h2, h3, hs⟩ := hf
                  have hc := @parse_datetime_complete 'T' _ h1 h2 h3
                  rw [← hs, hT] at hc
                  cases hc
                · exfalso
                  obtain ⟨h1, h2, h3, hs⟩ := hf
                  have hc := @parse_datetime_complete ' ' _ h1 h2 h3
                  rw [← hs, hSp] at hc
                  cases hc
                · exfalso
                  obtain ⟨h1, h2, hs⟩ := hf
                  have hc := parse_date_complete h1 h2
                  rw [← hs, hD] at hc
                  cases hc
              · intro y mo d hdo
                exfalso
                obtain ⟨h1, h2, hs⟩ := hdo
                have hc := parse_date_complete h1 h2
                rw [← hs, hD] at hc
                cases hc

/-- C5 witness: the legacy date-only string decodes to midnight of that
date. -/
theorem datetime_decode_spec_witness :
    datetime_deserialize "2024-01-05"
      = Except.ok ⟨2024, 1, 5, 0, 0, 0⟩ := by
  apply (datetime_decode_spec "2024-01-05").2.1 2024 1 5
  refine ⟨by omega, by decide, ?_⟩
  rfl

end Gantt
